import Mathlib

/-!
Verification development for the twmd batch media downloader.

Shallow embedding of the core TypeScript sources:
  packages/shared/src/index.ts          (data model)
  packages/core/src/utils/path.ts       (sanitizePathPart, extensionFromUrl, buildMediaFilename)
  packages/core/src/downloader/media-downloader.ts
  packages/core/src/auth/session-store.ts
  packages/core/src/scraper/media-scraper.ts (GraphqlMediaScraper chunk)
  packages/core/src/orchestrator/run-batch-job.ts

Modelling conventions:
  - JS strings are Lean `String`; character-level work uses `List Char` via
    `String.toList` / `String.mk`.
  - The WHATWG `new URL` builtin is modelled by `parseUrl` below: it splits
    scheme://authority/path?query#fragment and lowercases scheme and host.
    It performs no percent-encoding; in particular characters such as
    `|`, `:`, `*` are kept verbatim in the pathname, which matches the real
    parser (they are not in the WHATWG path percent-encode set).
  - Node's `path.join` is modelled as joining with "/", `path.extname` and
    `path.dirname` are modelled directly.
  - I/O (fetch results, file existence, the ledger file contents, clocks)
    is passed in as explicit oracle functions / values, so every function
    is pure and executable.
  - JS `Set` is modelled as an insertion-ordered duplicate-free list.
-/

namespace Twmd

/-! ### Shared data model (packages/shared/src/index.ts) -/

inductive MediaKind where
  | image
  | video
  | gif
deriving DecidableEq, Repr

def MediaKind.toStr : MediaKind → String
  | .image => "image"
  | .video => "video"
  | .gif => "gif"

structure MediaItem where
  id : String
  tweetId : String
  username : String
  kind : MediaKind
  url : String
  createdAt : Option String := none
  filenameHint : Option String := none
deriving DecidableEq, Repr

inductive FailureScope where
  | user
  | media
deriving DecidableEq, Repr

structure FailureMediaInfo where
  tweetId : String
  mediaId : String
  url : String
  targetPath : Option String
deriving DecidableEq, Repr

structure FailureDetail where
  scope : FailureScope
  username : String
  message : String
  code : Option String
  media : Option FailureMediaInfo
  attempts : Option Nat
  timestamp : String
deriving DecidableEq, Repr

structure SessionData where
  cookies : List String
  updatedAt : String
  valid : Bool
deriving DecidableEq, Repr

/-! ### String helpers shared by the embedding -/

/-- JS whitespace predicate used by `String.prototype.trim` and the regex
class `\s` (restricted to the ASCII whitespace that occurs in the sources). -/
def jsWhitespace (c : Char) : Bool :=
  c = ' ' || c = '\t' || c = '\n' || c = '\r'

def trimCharList (l : List Char) : List Char :=
  ((l.dropWhile jsWhitespace).reverse.dropWhile jsWhitespace).reverse

/-- Model of `String.prototype.trim`. -/
def jsTrim (s : String) : String :=
  String.mk (trimCharList s.toList)

/-- Model of `String.prototype.toLowerCase` (ASCII). -/
def strLower (s : String) : String :=
  String.mk (s.toList.map Char.toLower)

def startsWithList : List Char → List Char → Bool
  | [], _ => true
  | _ :: _, [] => false
  | a :: as, b :: bs => a = b && startsWithList as bs

def listIsInfix (needle : List Char) : List Char → Bool
  | [] => needle.isEmpty
  | c :: rest => startsWithList needle (c :: rest) || listIsInfix needle rest

/-- Model of `String.prototype.includes`. -/
def includesSub (hay needle : String) : Bool :=
  listIsInfix needle.toList hay.toList

/-- Node `path.join` restricted to two segments, as used by the sources. -/
def pathJoin (a b : String) : String :=
  a ++ "/" ++ b

/-! ### URL model (WHATWG `new URL`, shallow) -/

structure UrlParts where
  scheme : String
  host : String
  pathname : String
  search : String
  hashPart : String
deriving DecidableEq, Repr

/-- Split a character list at the first occurrence of the literal `://`. -/
def schemeSplit : List Char → Option (List Char × List Char)
  | [] => none
  | c :: rest =>
    if c = ':' && startsWithList ['/', '/'] rest then
      some ([], rest.drop 2)
    else
      match schemeSplit rest with
      | some (a, b) => some (c :: a, b)
      | none => none

def notPathDelim (c : Char) : Bool :=
  c ≠ '/' && c ≠ '?' && c ≠ '#'

def notQueryDelim (c : Char) : Bool :=
  c ≠ '?' && c ≠ '#'

/-- An ASCII letter (the schemes the sources ever feed to `new URL` are
`http` / `https`). -/
def isSchemeChar (c : Char) : Bool :=
  (65 ≤ c.toNat && c.toNat ≤ 90) || (97 ≤ c.toNat && c.toNat ≤ 122)

/-- Shallow model of `new URL(raw)`: succeeds on `scheme://authority…`
with an alphabetic scheme and a nonempty authority, lowercasing scheme and
host, and splitting pathname / search / fragment at the first `?` / `#`. -/
def parseUrl (raw : String) : Option UrlParts :=
  match schemeSplit raw.toList with
  | none => none
  | some (schemeCs, rest) =>
    if schemeCs.isEmpty || !schemeCs.all isSchemeChar then none
    else
      let hostCs := rest.takeWhile notPathDelim
      if hostCs.isEmpty then none
      else
        let afterHost := rest.dropWhile notPathDelim
        let pathCs := afterHost.takeWhile notQueryDelim
        let afterPath := afterHost.dropWhile notQueryDelim
        let searchCs := afterPath.takeWhile (fun c => c ≠ '#')
        let hashCs := afterPath.dropWhile (fun c => c ≠ '#')
        some {
          scheme := String.mk (schemeCs.map Char.toLower)
          host := String.mk (hostCs.map Char.toLower)
          pathname := if pathCs.isEmpty then "/" else String.mk pathCs
          search := String.mk searchCs
          hashPart := String.mk hashCs }

/-- Model of `URL.origin` for the special schemes used in the sources. -/
def urlOrigin (u : UrlParts) : String :=
  u.scheme ++ "://" ++ u.host

/-- Model of `URL.toString` (the parts, reassembled). -/
def urlSerialize (u : UrlParts) : String :=
  u.scheme ++ "://" ++ u.host ++ u.pathname ++ u.search ++ u.hashPart

/-- Split a character list at the first occurrence of a character. -/
def splitAtFirstChar (sep : Char) : List Char → Option (List Char × List Char)
  | [] => none
  | c :: rest =>
    if c = sep then some ([], rest)
    else
      match splitAtFirstChar sep rest with
      | some (a, b) => some (c :: a, b)
      | none => none

/-- Split a character list on every occurrence of a character (the model
of `String.split`). -/
def splitListOnChar (sep : Char) : List Char → List (List Char)
  | [] => [[]]
  | c :: rest =>
    match splitListOnChar sep rest with
    | [] => if c = sep then [[], []] else [[c]]
    | h :: t => if c = sep then [] :: h :: t else (c :: h) :: t

/-- Model of `url.searchParams.get(key)` (first matching pair; no percent
decoding, which the sources never rely on). -/
def searchParamValue (search : String) (key : String) : Option String :=
  let q := match search.toList with
    | '?' :: rest => rest
    | l => l
  let pairs := splitListOnChar '&' q
  pairs.findSome? fun kv =>
    match splitAtFirstChar '=' kv with
    | some (n, v) => if String.mk n = key then some (String.mk v) else none
    | none => if String.mk kv = key then some "" else none

/-- Model of Node `path.extname`. -/
def extnamePath (p : String) : String :=
  let base := ((p.toList.reverse.takeWhile (fun c => c ≠ '/')).reverse)
  let revBase := base.reverse
  let afterDot := revBase.takeWhile (fun c => c ≠ '.')
  if afterDot.length = base.length then ""
  else if base.length - afterDot.length - 1 = 0 then ""
  else String.mk ('.' :: afterDot.reverse)

/-- Model of Node `path.dirname` for the non-root paths the sources build. -/
def dirnameOf (p : String) : String :=
  let cs := p.toList
  let afterSlash := cs.reverse.takeWhile (fun c => c ≠ '/')
  if afterSlash.length = cs.length then "."
  else String.mk (cs.take (cs.length - afterSlash.length - 1))

/-! ### packages/core/src/utils/path.ts -/

/-- The character class of the `WINDOWS_FORBIDDEN` regex. -/
def isWindowsForbiddenChar (c : Char) : Bool :=
  c = '<' || c = '>' || c = ':' || c = '"' || c = '/' || c = '\\' ||
  c = '|' || c = '?' || c = '*' || decide (c.toNat ≤ 0x1F)

def sanitizePathPart (input : String) : String :=
  let replaced := String.mk (input.toList.map fun c =>
    if isWindowsForbiddenChar c then '_' else c)
  let trimmed := jsTrim replaced
  if trimmed = "" then "unknown" else trimmed

def isLowerAlnum (c : Char) : Bool :=
  ('a' ≤ c && c ≤ 'z') || ('0' ≤ c && c ≤ '9')

def extensionFromUrl (url : String) : Option String :=
  match parseUrl url with
  | none => none
  | some parsed =>
    let format := (searchParamValue parsed.search "format").map
        fun s => strLower (jsTrim s)
    let formatHit := match format with
      | some f => if f ≠ "" && f.toList.all isLowerAlnum then some f else none
      | none => none
    match formatHit with
    | some f => some f
    | none =>
      let ext := (extnamePath parsed.pathname).toList.map Char.toLower
      if ext.isEmpty then none else some (String.mk (ext.drop 1))

def defaultExtension : MediaKind → String
  | .image => "jpg"
  | .gif => "gif"
  | .video => "mp4"

def buildMediaFilename (item : MediaItem) : String :=
  let ext := (extensionFromUrl item.url).getD (defaultExtension item.kind)
  let tweetId := sanitizePathPart item.tweetId
  let mediaId := sanitizePathPart item.id
  tweetId ++ "_" ++ mediaId ++ "." ++ ext

/-! ### Downloaded-media ledger key and path
(packages/core/src/downloader/media-downloader.ts) -/

def downloadedMediaCacheVersion : Nat := 1

def downloadedMediaCacheFileName : String := "downloaded-media.json"

def getDownloadedMediaCachePath (outputDir : String) : String :=
  pathJoin (pathJoin outputDir ".twmd-cache") downloadedMediaCacheFileName

def normalizeMediaUrlForCacheKey (rawUrl : String) : String :=
  match parseUrl rawUrl with
  | some parsed => urlOrigin parsed ++ parsed.pathname
  | none => rawUrl

def buildDownloadedMediaKey (item : MediaItem) : String :=
  String.intercalate "|"
    [strLower (jsTrim item.username), jsTrim item.tweetId,
     item.kind.toStr, normalizeMediaUrlForCacheKey item.url]

/-- Dropping everything from the first `?` or `#` on, as the claim C5 words
"the URL with its query string and fragment dropped". -/
def dropQueryAndFragment (s : String) : String :=
  String.mk (s.toList.takeWhile notQueryDelim)

/-- The ledger key exactly as claim C5 words it: lowercased username (no
trim), the tweetId (no trim), the kind, the URL with query string and
fragment dropped, joined by a pipe. -/
def specClaimMediaKey (item : MediaItem) : String :=
  String.intercalate "|"
    [strLower item.username, item.tweetId, item.kind.toStr,
     dropQueryAndFragment item.url]

/-- The ledger key as amended: trimmed-and-lowercased username, trimmed
tweetId, the kind, and — when the URL parses — the parsed URL's
serialization with query string and fragment dropped (scheme and host
lowercased by parsing), else the raw URL. -/
def specAmendedMediaKey (item : MediaItem) : String :=
  let urlPart := match parseUrl item.url with
    | some u => dropQueryAndFragment (urlSerialize u)
    | none => item.url
  String.intercalate "|"
    [strLower (jsTrim item.username), jsTrim item.tweetId,
     item.kind.toStr, urlPart]

/-! ### Thrown values and retry policy
(packages/core/src/downloader/media-downloader.ts) -/

/-- A JS thrown value: either an `Error` object (with the optional
`status` / `code` fields of `DownloadAttemptError`) or any non-`Error`
value (modelled by its `String(error)` rendering). -/
inductive ThrownValue where
  | errValue (status : Option Int) (code : Option String) (message : String)
  | nonErrorValue (content : String)
deriving DecidableEq, Repr

def ThrownValue.isNonError : ThrownValue → Bool
  | .errValue _ _ _ => false
  | .nonErrorValue _ => true

/-- The rendering used by `error instanceof Error ? error.message :
String(error)`. -/
def thrownMessage : ThrownValue → String
  | .errValue _ _ m => m
  | .nonErrorValue c => c

def transportMessage (m : String) : Bool :=
  includesSub (strLower m) "network" || includesSub (strLower m) "timeout" ||
  includesSub (strLower m) "fetch"

/-- `shouldRetry` from media-downloader.ts. -/
def shouldRetry (e : ThrownValue) : Bool :=
  match e with
  | .nonErrorValue _ => true
  | .errValue status _ message =>
    match status with
    | some s => if s = 429 then true else if s ≥ 500 then true else false
    | none => transportMessage message

/-- The retry condition as claim C3 words it: no HTTP status together with
a transport-flavoured message, or HTTP status 429 / at least 500. -/
def claimRetryCondition (e : ThrownValue) : Bool :=
  match e with
  | .errValue (some s) _ _ => s = 429 || s ≥ 500
  | .errValue none _ message => transportMessage message
  | .nonErrorValue content => transportMessage content

/-- `toFailureCode` from media-downloader.ts. -/
def toFailureCode (e : ThrownValue) : Option String :=
  match e with
  | .nonErrorValue _ => none
  | .errValue status code _ =>
    match code with
    | some c => if c.length > 0 then some c else
        (match status with
         | some s => some ("HTTP_" ++ toString s)
         | none => none)
    | none =>
      match status with
      | some s => some ("HTTP_" ++ toString s)
      | none => none

/-- `toFailureAttempts` from media-downloader.ts (the `attempts` field as
set on the rethrown error, with the caller's fallback). -/
def toFailureAttempts (attemptsField : Option Nat) (fallback : Nat) : Nat :=
  match attemptsField with
  | some a => if a > 0 then a else fallback
  | none => fallback

/-- One attempt of the `downloadWithRetries` loop. `attemptResult n` is the
outcome of attempt number `n` (0-based): `.ok` when the HTTP GET succeeded
and the body was written, `.error e` when the attempt threw `e`. On
success the model returns the number of attempts performed; on terminal
failure it returns the thrown value together with the `attempts` field the
code stores on it. The `fuel` argument is `retryCount + 1 - attempt`,
which the loop structure keeps positive; the fuel-0 branch is
unreachable. -/
def downloadWithRetriesGo (attemptResult : Nat → Except ThrownValue Unit)
    (retryCount : Nat) : Nat → Nat → Except (ThrownValue × Nat) Nat
  | _, 0 => .ok 0
  | attempt, fuel + 1 =>
    match attemptResult attempt with
    | .ok _ => .ok (attempt + 1)
    | .error e =>
      if !shouldRetry e || attempt = retryCount then .error (e, attempt + 1)
      else downloadWithRetriesGo attemptResult retryCount (attempt + 1) fuel

/-- `downloadWithRetries` from media-downloader.ts (sleeps elided). -/
def downloadWithRetries (attemptResult : Nat → Except ThrownValue Unit)
    (retryCount : Nat) : Except (ThrownValue × Nat) Nat :=
  downloadWithRetriesGo attemptResult retryCount 0 (retryCount + 1)

/-! ### processOne / runWorker / downloadMediaBatch -/

inductive ItemOutcome where
  | downloadedOutcome
  | failedOutcome (f : FailureDetail)
  | skippedOutcome
deriving DecidableEq, Repr

/-- The I/O environment of one `downloadMediaBatch` call: whether a target
file already exists, the outcome of each download attempt of each item,
and the clock. -/
structure DlOracles where
  fileExistsAt : String → Bool
  attemptResult : MediaItem → Nat → Except ThrownValue Unit
  now : String

/-- JS `Set.add` on the insertion-ordered list model. -/
def keysAdd (l : List String) (k : String) : List String :=
  if k ∈ l then l else l ++ [k]

/-- `processOne` from media-downloader.ts (directory creation and sleeps
elided; the mutation of the shared key set is returned explicitly). -/
def processOne (o : DlOracles) (item : MediaItem) (outputDir : String)
    (retryCount : Nat) (username : String)
    (downloadedMediaKeys : List String) : ItemOutcome × List String :=
  let mediaKey := buildDownloadedMediaKey item
  if mediaKey ∈ downloadedMediaKeys then (.skippedOutcome, downloadedMediaKeys)
  else
    let userDir := pathJoin outputDir (sanitizePathPart item.username)
    let fileName := buildMediaFilename item
    let filePath := pathJoin userDir fileName
    if o.fileExistsAt filePath then
      (.skippedOutcome, keysAdd downloadedMediaKeys mediaKey)
    else
      match downloadWithRetries (o.attemptResult item) retryCount with
      | .ok _ => (.downloadedOutcome, keysAdd downloadedMediaKeys mediaKey)
      | .error (e, att) =>
        (.failedOutcome {
            scope := .media
            username := username
            message := thrownMessage e
            code := toFailureCode e
            media := some {
              tweetId := item.tweetId
              mediaId := item.id
              url := item.url
              targetPath := some filePath }
            attempts := some (toFailureAttempts (some att) (retryCount + 1))
            timestamp := o.now },
         downloadedMediaKeys)

structure DownloadMediaBatchResult where
  total : Nat
  downloaded : Nat
  failed : Nat
  skipped : Nat
  failureDetails : List FailureDetail
deriving DecidableEq, Repr

/-- The counter update `runWorker` performs for one processed item. -/
def applyOutcome (result : DownloadMediaBatchResult) :
    ItemOutcome → DownloadMediaBatchResult
  | .downloadedOutcome => { result with downloaded := result.downloaded + 1 }
  | .failedOutcome f =>
    { result with failed := result.failed + 1,
                  failureDetails := result.failureDetails ++ [f] }
  | .skippedOutcome => { result with skipped := result.skipped + 1 }

/-- The worker loop of `runWorker`, sequentialized: the workers share one
queue and take items one at a time, so across all workers every queue item
is processed exactly once and contributes exactly one counter update; the
fold below is that per-item accounting. -/
def runWorkerFold (o : DlOracles) (outputDir : String) (retryCount : Nat)
    (username : String) :
    List MediaItem → DownloadMediaBatchResult → List String →
    DownloadMediaBatchResult × List String
  | [], result, keys => (result, keys)
  | item :: rest, result, keys =>
    runWorkerFold o outputDir retryCount username rest
      (applyOutcome result (processOne o item outputDir retryCount username keys).1)
      (processOne o item outputDir retryCount username keys).2

/-- `downloadMediaBatch` from media-downloader.ts. `initialKeys` is the
key set loaded from the ledger; the updated key set (persisted on return)
is the second component. -/
def downloadMediaBatch (o : DlOracles) (initialKeys : List String)
    (items : List MediaItem) (outputDir : String)
    (retryCountOpt : Option Nat) (usernameOpt : Option String) :
    DownloadMediaBatchResult × List String :=
  let retryCount := retryCountOpt.getD 2
  let username := usernameOpt.getD "unknown"
  let result0 : DownloadMediaBatchResult :=
    { total := items.length, downloaded := 0, failed := 0, skipped := 0,
      failureDetails := [] }
  if items.length = 0 then (result0, initialKeys)
  else runWorkerFold o outputDir retryCount username items result0 initialKeys

/-! ### The ledger file (load and persist) -/

/-- A JSON value as produced by `JSON.parse` (numbers restricted to the
integers; the version check `parsed.version !== 1` only ever accepts the
number 1, so non-integer numbers behave like any other non-1 value). -/
inductive Json where
  | null
  | jbool (b : Bool)
  | jnum (n : Int)
  | jstr (s : String)
  | jarr (elems : List Json)
  | jobj (fields : List (String × Json))
deriving Repr

def lookupField : List (String × Json) → String → Option Json
  | [], _ => none
  | (k, v) :: rest, key => if k = key then some v else lookupField rest key

/-- JS member access `j.key` on a parsed JSON value: objects look keys up,
every other non-null value yields `undefined` (`none`). Member access on
`null` throws; callers model that path separately. -/
def jsonField (j : Json) (key : String) : Option Json :=
  match j with
  | .jobj fields => lookupField fields key
  | _ => none

def jsonStringEntry : Json → Option String
  | .jstr s => if s.length > 0 then some s else none
  | _ => none

/-- The strict-equality check `parsed.version !== 1`, negated. -/
def isVersionOne : Option Json → Bool
  | some (.jnum n) => n = 1
  | _ => false

/-- JS `new Set(list)` insertion-order dedup. -/
def jsSetDedup (l : List String) : List String :=
  go [] l
where
  go : List String → List String → List String
    | _, [] => []
    | seen, x :: xs => if x ∈ seen then go seen xs else x :: go (x :: seen) xs

/-- `loadDownloadedMediaCache` from media-downloader.ts, as a function of
the read-and-parse outcome of the ledger file: `none` models a missing
file or unparseable JSON (the `catch` branch); `some j` a successful
parse. Member access on a parsed `null` throws and lands in the same
`catch`. Returns the loaded key set (insertion-ordered). -/
def loadDownloadedMediaCacheKeys (readResult : Option Json) : List String :=
  match readResult with
  | none => []
  | some .null => []
  | some j =>
    if !isVersionOne (jsonField j "version") then []
    else
      match jsonField j "mediaKeys" with
      | some (.jarr elems) => jsSetDedup (elems.filterMap jsonStringEntry)
      | _ => []

structure DownloadedMediaCache where
  version : Nat
  updatedAt : String
  mediaKeys : List String
deriving DecidableEq, Repr

/-- The file-system side effects of `persistDownloadedMediaCache`. -/
inductive FsOp where
  | mkdirRecursive (dir : String)
  | writeFileOp (path : String) (payload : DownloadedMediaCache)
  | renameOp (src : String) (dst : String)
deriving DecidableEq, Repr

/-- `persistDownloadedMediaCache` from media-downloader.ts, as the ordered
list of file-system operations it performs. -/
def persistDownloadedMediaCachePlan (path : String) (mediaKeys : List String)
    (now : String) : List FsOp :=
  let payload : DownloadedMediaCache :=
    { version := downloadedMediaCacheVersion, updatedAt := now,
      mediaKeys := mediaKeys }
  [ .mkdirRecursive (dirnameOf path),
    .writeFileOp (path ++ ".tmp") payload,
    .renameOp (path ++ ".tmp") path ]

/-! ### GraphqlMediaScraper (packages/core/src/scraper/media-scraper.ts,
final chunk) -/

/-- `normalizeUsername` of the graphql scraper chunk: strip one leading
`@`, trim, lowercase. -/
def normalizeUsername (input : String) : String :=
  let stripped := match input.toList with
    | '@' :: rest => String.mk rest
    | _ => input
  strLower (jsTrim stripped)

structure GraphqlVariant where
  bitrate : Option Int
  content_type : Option String
  url : Option String
deriving DecidableEq, Repr

structure GraphqlMediaItem where
  media_key : Option String := none
  id_str : Option String := none
  mtype : Option String := none
  media_url_https : Option String := none
  media_url : Option String := none
  variants : Option (List GraphqlVariant) := none
deriving DecidableEq, Repr

structure GraphqlLegacyTweet where
  id_str : Option String := none
  created_at : Option String := none
  user_id_str : Option String := none
  entities_media : Option (List GraphqlMediaItem) := none
  extended_entities_media : Option (List GraphqlMediaItem) := none
  has_retweeted_status_result : Bool := false
deriving DecidableEq, Repr

structure V11User where
  screen_name : Option String := none
deriving DecidableEq, Repr

structure V11Status where
  id_str : Option String := none
  created_at : Option String := none
  user : Option V11User := none
  has_retweeted_status : Bool := false
  entities_media : Option (List GraphqlMediaItem) := none
  extended_entities_media : Option (List GraphqlMediaItem) := none
deriving DecidableEq, Repr

/-- The first-pair key of a `k=v` query pair. -/
def queryPairKey (kv : List Char) : String :=
  match splitAtFirstChar '=' kv with
  | some (n, _) => String.mk n
  | none => String.mk kv

/-- Model of `URLSearchParams.set`: replace the first pair with the key
(dropping later duplicates), or append when absent. -/
def urlSearchParamsSet (key : String) (newPair : List Char) :
    List (List Char) → List (List Char)
  | [] => [newPair]
  | kv :: rest =>
    if queryPairKey kv = key then
      newPair :: rest.filter (fun kv2 => queryPairKey kv2 ≠ key)
    else kv :: urlSearchParamsSet key newPair rest

/-- `normalizeImageUrl` from the graphql scraper chunk: force `name=orig`
on `pbs.twimg.com/media/` URLs. -/
def normalizeImageUrl (raw : String) : String :=
  if raw = "" then raw
  else
    match parseUrl raw with
    | none => raw
    | some parsed =>
      if !(includesSub parsed.host "pbs.twimg.com" &&
           includesSub parsed.pathname "/media/") then raw
      else
        let q := match parsed.search.toList with
          | '?' :: rest => rest
          | l => l
        let pairs := if q.isEmpty then [] else splitListOnChar '&' q
        let pairs2 := urlSearchParamsSet "name" ("name=orig".toList) pairs
        urlSerialize { parsed with
          search := "?" ++ String.mk (List.intercalate ['&'] pairs2) }

/-- The de-duplication key of `dedupeMedia`. -/
def dedupeKeyOf (item : MediaItem) : String :=
  item.tweetId ++ ":" ++ item.kind.toStr ++ ":" ++ item.url

/-- `dedupeMedia`: keep the first item per `tweetId:kind:url` key. -/
def dedupeMediaGo : List String → List MediaItem → List MediaItem
  | _, [] => []
  | seen, item :: rest =>
    if dedupeKeyOf item ∈ seen then dedupeMediaGo seen rest
    else item :: dedupeMediaGo (dedupeKeyOf item :: seen) rest

def dedupeMedia (items : List MediaItem) : List MediaItem :=
  dedupeMediaGo [] items

/-- Stable insertion into a descending-sorted list (the model of the
stable `Array.sort` with comparator on bitrate). -/
def insertByBitrateDesc (v : GraphqlVariant) :
    List GraphqlVariant → List GraphqlVariant
  | [] => [v]
  | w :: rest =>
    if w.bitrate.getD (-1) < v.bitrate.getD (-1) then v :: w :: rest
    else w :: insertByBitrateDesc v rest

def sortByBitrateDesc : List GraphqlVariant → List GraphqlVariant
  | [] => []
  | v :: rest => insertByBitrateDesc v (sortByBitrateDesc rest)

/-- `pickBestVideoVariant` from the graphql scraper chunk. -/
def pickBestVideoVariant (media : GraphqlMediaItem) : Option String :=
  let variants := media.variants.getD []
  let valid := variants.filter fun v =>
    match v.url with
    | some u => u.length > 0
    | none => false
  if valid.isEmpty then none
  else
    let mp4 := valid.filter fun v =>
      (match v.content_type with
       | some ct => includesSub ct "mp4"
       | none => false) ||
      (match v.url with
       | some u => includesSub u ".mp4"
       | none => false)
    let selected := sortByBitrateDesc (if mp4.length > 0 then mp4 else valid)
    selected.head?.bind (fun v => v.url)

/-- `mapMediaKind` from the graphql scraper chunk. -/
def mapMediaKind (media : GraphqlMediaItem) (resolvedUrl : String) :
    Option MediaKind :=
  if media.mtype = some "photo" then some .image
  else if media.mtype = some "animated_gif" then some .gif
  else if media.mtype = some "video" then
    some (if includesSub resolvedUrl "/tweet_video/" then .gif else .video)
  else none

/-- The loop body of `mapMediaToItemsFromTweet` (the index counts pushed
items, exactly as the `continue`-guarded `index += 1` does). -/
def mapMediaGo (tweetId : String) (createdAt : Option String)
    (username : String) (allowedKinds : List MediaKind) :
    List GraphqlMediaItem → Nat → List MediaItem
  | [], _ => []
  | media :: rest, index =>
    let url : Option String :=
      if media.mtype = some "photo" then
        let u := normalizeImageUrl ((media.media_url_https).getD
          ((media.media_url).getD ""))
        if u = "" then none else some u
      else if media.mtype = some "video" || media.mtype = some "animated_gif" then
        pickBestVideoVariant media
      else none
    match url with
    | none => mapMediaGo tweetId createdAt username allowedKinds rest index
    | some u =>
      match mapMediaKind media u with
      | none => mapMediaGo tweetId createdAt username allowedKinds rest index
      | some kind =>
        if kind ∈ allowedKinds then
          let mediaId := (media.id_str).getD
            ((media.media_key).getD ("media_" ++ toString index))
          { id := tweetId ++ "_" ++ mediaId
            tweetId := tweetId
            username := username
            kind := kind
            url := u
            createdAt := createdAt
            filenameHint := some (tweetId ++ "_" ++ mediaId) } ::
            mapMediaGo tweetId createdAt username allowedKinds rest (index + 1)
        else mapMediaGo tweetId createdAt username allowedKinds rest index

def mapMediaToItemsFromTweet (tweetId : String) (createdAt : Option String)
    (medias : List GraphqlMediaItem) (username : String)
    (allowedKinds : List MediaKind) : List MediaItem :=
  mapMediaGo tweetId createdAt username allowedKinds medias 0

/-- `mapGraphqlTweetToMediaItems` from the graphql scraper chunk. -/
def mapGraphqlTweetToMediaItems (tweet : GraphqlLegacyTweet)
    (expectedUserId : String) (username : String)
    (allowedKinds : List MediaKind) : List MediaItem :=
  match tweet.id_str with
  | none => []
  | some tweetId =>
    if tweetId = "" then []
    else
      let userMismatch := match tweet.user_id_str with
        | some uid => uid ≠ "" && uid ≠ expectedUserId
        | none => false
      if userMismatch then []
      else if tweet.has_retweeted_status_result then []
      else
        let medias := (tweet.extended_entities_media).getD
          ((tweet.entities_media).getD [])
        if medias.isEmpty then []
        else mapMediaToItemsFromTweet tweetId tweet.created_at medias
          username allowedKinds

/-- `mapV11TweetToMediaItems` from the graphql scraper chunk. -/
def mapV11TweetToMediaItems (tweet : V11Status) (normalizedUsername : String)
    (allowedKinds : List MediaKind) : List MediaItem :=
  match tweet.id_str with
  | none => []
  | some tweetId =>
    if tweetId = "" then []
    else if tweet.has_retweeted_status then []
    else
      let author := (tweet.user.bind V11User.screen_name).map strLower
      let authorMismatch := match author with
        | some a => a ≠ "" && a ≠ normalizedUsername
        | none => false
      if authorMismatch then []
      else
        let medias := (tweet.extended_entities_media).getD
          ((tweet.entities_media).getD [])
        if medias.isEmpty then []
        else mapMediaToItemsFromTweet tweetId tweet.created_at medias
          normalizedUsername allowedKinds

structure GraphqlPage where
  tweets : List GraphqlLegacyTweet
  nextCursor : Option String := none

/-- The network behaviour of one `GraphqlApiClient` for one handle: user
id resolution, `UserMedia` pages by (requested page size, cursor), and
v1.1 timeline pages by (requested count, max_id). -/
structure GraphqlClientModel where
  resolveUserId : Except String String
  mediaPage : Int → Option String → Except String GraphqlPage
  v11Page : Int → Option String → Except String (List V11Status)

/-- The pagination loop of `fetchViaGraphql`; `fuel` is the remaining
guard budget (the source starts with guard 0 and stops at 30). A thrown
page fetch aborts the whole call, discarding collected items. -/
def fetchViaGraphqlGo (client : GraphqlClientModel) (userId username : String)
    (allowedKinds : List MediaKind) :
    Nat → Int → Option String → Except String (List MediaItem)
  | 0, _, _ => .ok []
  | fuel + 1, remaining, cursor =>
    if remaining ≤ 0 then .ok []
    else
      match client.mediaPage (min 100 remaining) cursor with
      | .error e => .error e
      | .ok page =>
        if page.tweets.isEmpty then .ok []
        else
          let newItems := page.tweets.flatMap fun t =>
            mapGraphqlTweetToMediaItems t userId username allowedKinds
          match page.nextCursor with
          | none => .ok newItems
          | some nc =>
            if nc = "" || some nc = cursor then .ok newItems
            else
              match fetchViaGraphqlGo client userId username allowedKinds fuel
                  (remaining - page.tweets.length) (some nc) with
              | .error e => .error e
              | .ok rest => .ok (newItems ++ rest)

def fetchViaGraphql (client : GraphqlClientModel) (username : String)
    (maxTweets : Int) (allowedKinds : List MediaKind) :
    Except String (List MediaItem) :=
  match client.resolveUserId with
  | .error e => .error e
  | .ok userId =>
    match fetchViaGraphqlGo client userId username allowedKinds 30
        maxTweets none with
    | .error e => .error e
    | .ok collected => .ok (dedupeMedia collected)

def digitsToNat : List Char → Nat :=
  List.foldl (fun acc c => acc * 10 + (c.toNat - 48)) 0

/-- The pagination loop of `fetchViaV11`. -/
def fetchViaV11Go (client : GraphqlClientModel)
    (normalizedUsername : String) (allowedKinds : List MediaKind) :
    Nat → Int → Option String → Except String (List MediaItem)
  | 0, _, _ => .ok []
  | fuel + 1, remaining, maxId =>
    if remaining ≤ 0 then .ok []
    else
      match client.v11Page (min 200 remaining) maxId with
      | .error e => .error e
      | .ok page =>
        if page.isEmpty then .ok []
        else
          let newItems := page.flatMap fun t =>
            mapV11TweetToMediaItems t normalizedUsername allowedKinds
          match page.getLast?.bind V11Status.id_str with
          | none => .ok newItems
          | some lastId =>
            if lastId = "" || !(lastId.toList.all Char.isDigit) then .ok newItems
            else
              let nextMax := toString ((digitsToNat lastId.toList : Int) - 1)
              if nextMax = lastId then .ok newItems
              else
                match fetchViaV11Go client normalizedUsername allowedKinds fuel
                    (remaining - page.length) (some nextMax) with
                | .error e => .error e
                | .ok rest => .ok (newItems ++ rest)

def fetchViaV11 (client : GraphqlClientModel) (username : String)
    (maxTweets : Int) (allowedKinds : List MediaKind) :
    Except String (List MediaItem) :=
  match fetchViaV11Go client (strLower username) allowedKinds 30
      maxTweets none with
  | .error e => .error e
  | .ok collected => .ok (dedupeMedia collected)

structure FetchUserMediaInput where
  username : String
  maxTweets : Option Int := none
  mediaKinds : List MediaKind

/-- `GraphqlMediaScraper.fetchUserMedia`: graphql first, v1.1 fallback,
aggregated error when both fail. -/
def fetchUserMedia (client : GraphqlClientModel) (initialized : Bool)
    (input : FetchUserMediaInput) : Except String (List MediaItem) :=
  if !initialized then .error "graphql scraper not initialized."
  else
    let username := normalizeUsername input.username
    let maxTweets := input.maxTweets.getD 200
    match fetchViaGraphql client username maxTweets input.mediaKinds with
    | .ok items => .ok items
    | .error e1 =>
      match fetchViaV11 client username maxTweets input.mediaKinds with
      | .ok items => .ok items
      | .error e2 =>
        .error ("graphql failed: graphql: " ++ e1 ++ " | v1.1: " ++ e2)

/-! ### buildGraphqlAuthBundle (packages/core/src/scraper/media-scraper.ts) -/

structure CookieRecord where
  name : String
  value : String
  domain : Option String
deriving DecidableEq, Repr

/-- `parseCookieFirstPair`: name/value of the first `;`-segment. -/
def parseCookieFirstPair (cookie : String) : Option (String × String) :=
  let first := jsTrim (String.mk ((splitListOnChar ';' cookie.toList).headD []))
  if first = "" then none
  else
    match splitAtFirstChar '=' first.toList with
    | none => none
    | some (n, v) =>
      if n.isEmpty then none
      else
        let name := jsTrim (String.mk n)
        let value := jsTrim (String.mk v)
        if name = "" || value = "" then none else some (name, value)

/-- The `Domain` attribute scan of `parseCookieRecord` (last match wins). -/
def cookieDomainAttr : List (List Char) → Option String → Option String
  | [], acc => acc
  | seg :: rest, acc =>
    match splitAtFirstChar '=' seg with
    | none => cookieDomainAttr rest acc
    | some (k, v) =>
      if k.isEmpty then cookieDomainAttr rest acc
      else
        let key := strLower (jsTrim (String.mk k))
        let val := jsTrim (String.mk v)
        if key = "domain" && val ≠ "" then cookieDomainAttr rest (some val)
        else cookieDomainAttr rest acc

/-- `parseCookieRecord` from the graphql scraper chunk. -/
def parseCookieRecord (cookie : String) : Option CookieRecord :=
  let segments := ((splitListOnChar ';' cookie.toList).map trimCharList).filter
    (fun l => !l.isEmpty)
  match segments with
  | [] => none
  | first :: restSegs =>
    match splitAtFirstChar '=' first with
    | none => none
    | some (n, v) =>
      if n.isEmpty then none
      else
        let name := jsTrim (String.mk n)
        let value := jsTrim (String.mk v)
        if name = "" || value = "" then none
        else some { name := name, value := value,
                    domain := cookieDomainAttr restSegs none }

/-- JS object property write (last value wins, first position kept; the
keys of the association list are unique by construction). -/
def objSet : List (String × String) → String → String →
    List (String × String)
  | [], k, v => [(k, v)]
  | p :: rest, k, v =>
    if p.1 = k then (k, v) :: rest else p :: objSet rest k v

def objGet (m : List (String × String)) (k : String) : Option String :=
  (m.find? (fun p => p.1 = k)).map (fun p => p.2)

/-- `parseSessionCookies`: name → value of each cookie's first pair. -/
def parseSessionCookies (cookies : List String) : List (String × String) :=
  cookies.foldl
    (fun m cookie =>
      match parseCookieFirstPair cookie with
      | some (n, v) => objSet m n v
      | none => m)
    []

/-- The `(record.domain ?? "").replace(/^\./, "").toLowerCase() || "*"`
domain key. -/
def cookieDomainKey (r : CookieRecord) : String :=
  let raw := (r.domain).getD ""
  let stripped := match raw.toList with
    | '.' :: rest => String.mk rest
    | _ => raw
  let lowered := strLower stripped
  if lowered = "" then "*" else lowered

/-- Multimap append used for `authByDomain` / `ct0ByDomain`. -/
def multiMapAdd (m : List (String × List String)) (k v : String) :
    List (String × List String) :=
  if m.any (fun p => p.1 = k) then
    m.map (fun p => if p.1 = k then (p.1, p.2 ++ [v]) else p)
  else m ++ [(k, [v])]

def multiMapGet (m : List (String × List String)) (k : String) :
    Option (List String) :=
  (m.find? (fun p => p.1 = k)).map (fun p => p.2)

/-- Collect the values of records named `name`, grouped by domain key. -/
def tokensByDomain (name : String) (records : List CookieRecord) :
    List (String × List String) :=
  records.foldl
    (fun m r => if r.name = name then multiMapAdd m (cookieDomainKey r) r.value
                else m)
    []

structure GraphqlAuthCandidate where
  authToken : String
  ct0 : String
  guestToken : Option String
deriving DecidableEq, Repr

structure GraphqlAuthBundle where
  cookieHeaderBase : String
  authCandidates : List GraphqlAuthCandidate
deriving DecidableEq, Repr

/-- Strip a leading `v1%3A` / `v1:` (case-insensitively on the letter) off
a guest token. -/
def stripGuestPrefix (s : String) : String :=
  let cs := s.toList
  let lower := cs.map Char.toLower
  if startsWithList "v1%3a".toList lower then String.mk (cs.drop 5)
  else if startsWithList "v1:".toList lower then String.mk (cs.drop 3)
  else s

/-- `buildGraphqlAuthBundle`. The thrown error becomes `.error`. -/
def buildGraphqlAuthBundle (session : SessionData) :
    Except String GraphqlAuthBundle :=
  let records := session.cookies.filterMap parseCookieRecord
  let cookieMap := parseSessionCookies session.cookies
  let guestTokenRaw := match objGet cookieMap "gt" with
    | some v => some v
    | none => objGet cookieMap "guest_id"
  let guestToken := guestTokenRaw.map stripGuestPrefix
  let authByDomain := tokensByDomain "auth_token" records
  let ct0ByDomain := tokensByDomain "ct0" records
  let candidateDomains := jsSetDedup
    ((authByDomain.map (fun p => p.1)) ++ (ct0ByDomain.map (fun p => p.1)) ++ ["*"])
  let allAuthTokens := jsSetDedup
    ((authByDomain.map (fun p => p.2)).flatten ++
      (objGet cookieMap "auth_token").toList)
  let allCt0Tokens := jsSetDedup
    ((ct0ByDomain.map (fun p => p.2)).flatten ++
      (objGet cookieMap "ct0").toList)
  let domainAligned := candidateDomains.flatMap fun domain =>
    let auths := (multiMapGet authByDomain domain).getD
      ((multiMapGet authByDomain "*").getD [])
    let ct0s := (multiMapGet ct0ByDomain domain).getD
      ((multiMapGet ct0ByDomain "*").getD [])
    auths.flatMap fun authToken =>
      ct0s.filterMap fun ct0 =>
        if authToken = "" || ct0 = "" then none
        else some { authToken := authToken, ct0 := ct0, guestToken := guestToken }
  let crossProduct := allAuthTokens.flatMap fun authToken =>
    allCt0Tokens.map fun ct0 =>
      ({ authToken := authToken, ct0 := ct0, guestToken := guestToken } :
        GraphqlAuthCandidate)
  let authCandidates := domainAligned ++ crossProduct
  let withFallback : Except String (List GraphqlAuthCandidate) :=
    if authCandidates.isEmpty then
      match objGet cookieMap "auth_token", objGet cookieMap "ct0" with
      | some a, some c =>
        if a = "" || c = "" then
          .error "graphql requires login cookies: auth_token and ct0."
        else .ok [{ authToken := a, ct0 := c, guestToken := guestToken }]
      | _, _ => .error "graphql requires login cookies: auth_token and ct0."
    else .ok authCandidates
  match withFallback with
  | .error e => .error e
  | .ok candidates =>
    let uniqueKeys := jsSetDedup (candidates.map fun c => c.authToken ++ "|" ++ c.ct0)
    let unique := uniqueKeys.filterMap fun k =>
      candidates.find? fun c => c.authToken ++ "|" ++ c.ct0 = k
    let cookieHeaderBase := String.intercalate "; "
      ((cookieMap.filter fun p =>
          p.1 ≠ "" && p.2 ≠ "" && p.1 ≠ "auth_token" && p.1 ≠ "ct0").map
        fun p => p.1 ++ "=" ++ p.2)
    .ok { cookieHeaderBase := cookieHeaderBase, authCandidates := unique }

/-! ### runBatchJob (packages/core/src/orchestrator/run-batch-job.ts) -/

inductive JobEventType where
  | job_started
  | user_started
  | media_found
  | download_progress
  | user_finished
  | job_finished
  | warning
  | error
deriving DecidableEq, Repr

structure JobProgress where
  total : Nat
  downloaded : Nat
  failed : Nat
  skipped : Nat
deriving DecidableEq, Repr

structure JobEvent where
  jtype : JobEventType
  message : String
  timestamp : String
  username : Option String := none
  progress : Option JobProgress := none
deriving DecidableEq, Repr

structure JobResult where
  totalUsers : Nat
  succeededUsers : Nat
  failedUsers : Nat
  totalMedia : Nat
  downloaded : Nat
  failed : Nat
  skipped : Nat
  failureDetails : List FailureDetail
deriving DecidableEq, Repr

structure BatchJobInput where
  users : List String
  outputDir : String
  mediaKinds : List MediaKind
  maxTweetsPerUser : Option Int := none
  concurrency : Option Nat := none
  retryCount : Option Nat := none
  userRetryCount : Option Nat := none
  userDelayMs : Option Nat := none
  perRequestDelayMs : Option Nat := none

/-- `createEvent`. -/
def createEvent (t : JobEventType) (message : String) (now : String)
    (username : Option String := none) (progress : Option JobProgress := none) :
    JobEvent :=
  { jtype := t, message := message, timestamp := now, username := username,
    progress := progress }

/-- `buildAnonymousSession`. -/
def buildAnonymousSession (now : String) : SessionData :=
  { cookies := [], valid := false, updatedAt := now }

/-- The `usernameRaw.replace(/^@/, "").trim()` normalization of the
orchestrator (no lowercasing, unlike the scraper's). -/
def stripAtTrim (usernameRaw : String) : String :=
  let stripped := match usernameRaw.toList with
    | '@' :: rest => String.mk rest
    | _ => usernameRaw
  jsTrim stripped

/-- The I/O environment of one job: the injected scraper's per-attempt
behaviour (username, 1-based attempt number) and the downloader's. -/
structure JobOracles where
  fetchResult : String → Nat → Except String (List MediaItem)
  dl : DlOracles

/-- The per-user attempt loop of `runBatchJob` (sleeps elided). `fuel` is
kept equal to `userRetryCount + 2 - attempt`, which makes the fuel-0
branch unreachable. Returns (events, result, ledger keys). -/
def runUserAttempts (o : JobOracles) (outputDir : String)
    (retryCount : Option Nat) (userRetryCount : Nat) (username : String)
    (now : String) :
    Nat → Nat → JobResult → List String →
    List JobEvent × JobResult × List String
  | 0, _, res, keys => ([], res, keys)
  | fuel + 1, attempt, res, keys =>
    match o.fetchResult username attempt with
    | .ok mediaItems =>
      let res1 := { res with totalMedia := res.totalMedia + mediaItems.length }
      let ev1 := createEvent .media_found
        ("Found " ++ toString mediaItems.length ++ " media item(s).") now
        (some username)
      let dl := downloadMediaBatch o.dl keys mediaItems outputDir retryCount
        (some username)
      let res2 := { res1 with
        downloaded := res1.downloaded + dl.1.downloaded
        failed := res1.failed + dl.1.failed
        skipped := res1.skipped + dl.1.skipped
        failureDetails := res1.failureDetails ++ dl.1.failureDetails
        succeededUsers := res1.succeededUsers + 1 }
      let ev2 := createEvent .download_progress "Download summary recorded."
        now (some username)
        (some { total := dl.1.total, downloaded := dl.1.downloaded,
                failed := dl.1.failed, skipped := dl.1.skipped })
      let ev3 := createEvent .user_finished ("Finished @" ++ username) now
        (some username)
      ([ev1, ev2, ev3], res2, dl.2)
    | .error msg =>
      let detail : FailureDetail :=
        { scope := .user, username := username, message := msg, code := none,
          media := none, attempts := some attempt, timestamp := now }
      if attempt ≤ userRetryCount then
        let resW := { res with failureDetails := res.failureDetails ++ [detail] }
        let evW := createEvent .warning
          ("@" ++ username ++ " attempt " ++ toString attempt ++ "/" ++
            toString (userRetryCount + 1) ++ " failed, retrying: " ++ msg)
          now (some username)
        match runUserAttempts o outputDir retryCount userRetryCount username
            now fuel (attempt + 1) resW keys with
        | (evs, res2, keys2) => (evW :: evs, res2, keys2)
      else
        let resE := { res with
          failureDetails := res.failureDetails ++ [detail]
          failedUsers := res.failedUsers + 1 }
        ([createEvent .error ("@" ++ username ++ " failed: " ++ msg) now
            (some username)], resE, keys)

/-- One `for (const usernameRaw of input.users)` iteration. -/
def runOneUser (o : JobOracles) (outputDir : String) (retryCount : Option Nat)
    (userRetryCount : Nat) (now : String) (usernameRaw : String)
    (res : JobResult) (keys : List String) :
    List JobEvent × JobResult × List String :=
  let username := stripAtTrim usernameRaw
  if username = "" then
    ([createEvent .warning "Skipped empty username entry." now],
     { res with failedUsers := res.failedUsers + 1 }, keys)
  else
    match runUserAttempts o outputDir retryCount userRetryCount username now
        (userRetryCount + 1) 1 res keys with
    | (evs, res2, keys2) =>
      (createEvent .user_started ("Processing @" ++ username) now
        (some username) :: evs, res2, keys2)

def runUsersFold (o : JobOracles) (outputDir : String)
    (retryCount : Option Nat) (userRetryCount : Nat) (now : String) :
    List String → JobResult → List String →
    List JobEvent × JobResult × List String
  | [], res, keys => ([], res, keys)
  | u :: rest, res, keys =>
    match runOneUser o outputDir retryCount userRetryCount now u res keys with
    | (evs, res1, keys1) =>
      match runUsersFold o outputDir retryCount userRetryCount now rest
          res1 keys1 with
      | (evs2, res2, keys2) => (evs ++ evs2, res2, keys2)

/-- The event/result trace of `runBatchJob` after a successful scraper
initialization (session loading and initialization happen before the
first event; cleanup and sleeps are elided). `initialKeys` is the on-disk
ledger key set shared by the per-user `downloadMediaBatch` calls. -/
def runBatchJobCore (o : JobOracles) (input : BatchJobInput)
    (initialKeys : List String) (now : String) : List JobEvent × JobResult :=
  let userRetryCount := (input.userRetryCount).getD 1
  let res0 : JobResult :=
    { totalUsers := input.users.length, succeededUsers := 0, failedUsers := 0,
      totalMedia := 0, downloaded := 0, failed := 0, skipped := 0,
      failureDetails := [] }
  let started := createEvent .job_started
    ("Batch started for " ++ toString input.users.length ++ " user(s).") now
  match runUsersFold o input.outputDir input.retryCount userRetryCount now
      input.users res0 initialKeys with
  | (evs, res, _) =>
    let finished := createEvent .job_finished "Batch finished." now none
      (some { total := res.totalMedia, downloaded := res.downloaded,
              failed := res.failed, skipped := res.skipped })
    (started :: evs ++ [finished], res)

/-- `runBatchJob` driven by the default graphql scraper: the stored
session (or the synthesized anonymous one) is fed to
`buildGraphqlAuthBundle` by `GraphqlMediaScraper.initialize` before the
generator yields anything; a thrown bundle error aborts the job with no
events. -/
def runBatchJobWithGraphqlInit (stored : Option SessionData)
    (o : JobOracles) (input : BatchJobInput) (initialKeys : List String)
    (now : String) : Except String (List JobEvent × JobResult) :=
  let activeSession := match stored with
    | some s => if s.cookies.length > 0 then s else buildAnonymousSession now
    | none => buildAnonymousSession now
  match buildGraphqlAuthBundle activeSession with
  | .error e => .error e
  | .ok _ => .ok (runBatchJobCore o input initialKeys now)

/-- Projection of an event trace onto one handle. -/
def projectOnHandle (events : List JobEvent) (h : String) : List JobEventType :=
  (events.filter (fun e => e.username = some h)).map JobEvent.jtype

/-- The per-handle regex of claim C4, as written:
`user_started (warning | media_found download_progress) user_finished |
user_started warning* error`. -/
def matchesClaimUserRegex (l : List JobEventType) : Bool :=
  match l with
  | .user_started :: rest =>
    (rest = [.warning, .user_finished] ||
     rest = [.media_found, .download_progress, .user_finished]) ||
    rest.dropWhile (fun t => t = .warning) = [.error]
  | _ => false

/-- The amended per-handle regex:
`user_started warning* (media_found download_progress user_finished |
error)`. -/
def matchesAmendedUserRegex (l : List JobEventType) : Bool :=
  match l with
  | .user_started :: rest =>
    rest.dropWhile (fun t => t = .warning) =
      [.media_found, .download_progress, .user_finished] ||
    rest.dropWhile (fun t => t = .warning) = [.error]
  | _ => false

/-- A trivial downloader environment (no file ever exists, downloads
succeed) for the concrete C4 runs. -/
def c4dl : DlOracles :=
  { fileExistsAt := fun _ => false, attemptResult := fun _ _ => .ok (),
    now := "t0" }

/-- A scraper behaviour that throws "timeout" on the first attempt for
alice and succeeds with no items on the second. -/
def c4oracles : JobOracles :=
  { fetchResult := fun u attempt =>
      if u = "alice" && attempt = 1 then .error "timeout" else .ok [],
    dl := c4dl }

def c4input : BatchJobInput :=
  { users := ["alice"], outputDir := "out", mediaKinds := [.image],
    userRetryCount := some 1 }

def c4winput : BatchJobInput :=
  { users := ["bob"], outputDir := "out", mediaKinds := [.image],
    userRetryCount := some 1 }

/-- The hypothesis of claim C9, formalized: the cookie carries an
`auth_token` or `ct0` name=value pair under either cookie parser of the
scraper. -/
def sessionMentionsAuthCookie (c : String) : Bool :=
  (match parseCookieRecord c with
   | some r => r.name = "auth_token" || r.name = "ct0"
   | none => false) ||
  (match parseCookieFirstPair c with
   | some p => p.1 = "auth_token" || p.1 = "ct0"
   | none => false)

def c9oracles : JobOracles :=
  { fetchResult := fun _ _ => .ok [], dl := c4dl }

def c9input : BatchJobInput :=
  { users := ["carol"], outputDir := "out", mediaKinds := [.image] }

/-! ### Cookie normalization (packages/core/src/auth/session-store.ts) -/

/-- The body of one attempted match of the regex `;\s*Domain=([^;]+)` at a
`;`: the input is the character list right after the `;`. Returns (value,
suffix). The whitespace run cannot overlap the case-insensitive literal
`Domain=`, so greedy `dropWhile` is exact. -/
def tryMatchAt (l : List Char) : Option (List Char × List Char) :=
  let r := l.dropWhile jsWhitespace
  if startsWithList "domain=".toList (r.map Char.toLower) then
    let v := (r.drop 7).takeWhile (fun c => c ≠ ';')
    if v.isEmpty then none
    else some (v, (r.drop 7).dropWhile (fun c => c ≠ ';'))
  else none

/-- The leftmost match of `;\s*Domain=([^;]+)` (case-insensitive):
(prefix before the matching `;`, captured value, suffix after it). -/
def findDomainMatch : List Char → Option (List Char × List Char × List Char)
  | [] => none
  | c :: rest =>
    if c = ';' then
      match tryMatchAt rest with
      | some (v, suf) => some ([], v, suf)
      | none =>
        match findDomainMatch rest with
        | some (pre, v, suf) => some (c :: pre, v, suf)
        | none => none
    else
      match findDomainMatch rest with
      | some (pre, v, suf) => some (c :: pre, v, suf)
      | none => none

def endsWithStr (s suffix : String) : Bool :=
  startsWithList suffix.toList.reverse s.toList.reverse

/-- `normalizeCookieDomainValue` from session-store.ts. -/
def normalizeCookieDomainValue (rawDomain : String) : String :=
  let trimmed := jsTrim rawDomain
  let stripped := match trimmed.toList with
    | '.' :: rest => String.mk rest
    | _ => trimmed
  let domain := strLower stripped
  if domain = "x.com" || endsWithStr domain ".x.com" then ".x.com"
  else if domain = "twitter.com" || endsWithStr domain ".twitter.com" then
    ".twitter.com"
  else trimmed

/-- `normalizeCookieDomainAttribute`: replace the first `Domain` attribute
match with `; Domain=<normalized value>`. -/
def normalizeCookieDomainAttribute (cookie : String) : String :=
  match findDomainMatch cookie.toList with
  | none => cookie
  | some (pre, v, suf) =>
    String.mk (pre ++ "; Domain=".toList ++
      (normalizeCookieDomainValue (String.mk v)).toList ++ suf)

/-- The test regex `;\s*Domain=`/i of `withDomain` (no value required). -/
def hasDomainTest : List Char → Bool
  | [] => false
  | c :: rest =>
    (c = ';' && startsWithList "domain=".toList
      ((rest.dropWhile jsWhitespace).map Char.toLower)) || hasDomainTest rest

/-- `withDomain` from session-store.ts. -/
def withDomain (cookie : String) (domain : String) : String :=
  if hasDomainTest cookie.toList then
    match findDomainMatch cookie.toList with
    | some (pre, _, suf) =>
      String.mk (pre ++ "; Domain=".toList ++ domain.toList ++ suf)
    | none => cookie
  else cookie ++ "; Domain=" ++ domain

/-- `expandCrossDomainCookies` from session-store.ts. -/
def expandCrossDomainCookies (cookie : String) : List String :=
  match findDomainMatch cookie.toList with
  | none => [cookie]
  | some (_, v, _) =>
    let normalizedDomain := normalizeCookieDomainValue (String.mk v)
    if normalizedDomain = ".x.com" then
      [withDomain cookie ".x.com", withDomain cookie ".twitter.com"]
    else if normalizedDomain = ".twitter.com" then
      [withDomain cookie ".twitter.com", withDomain cookie ".x.com"]
    else [cookie]

/-- `normalizeCookiesForTwitterRequests` from session-store.ts. -/
def normalizeCookiesForTwitterRequests (cookies : List String) : List String :=
  jsSetDedup
    ((((cookies.map jsTrim).filter (fun c => c.length > 0)).map
        normalizeCookieDomainAttribute).flatMap expandCrossDomainCookies)

/-- The amended claim's side condition: after trimming, the cookie's first
`Domain` attribute match (if any) does not have a whitespace-only value. -/
def goodCookie (c : String) : Bool :=
  match findDomainMatch (jsTrim c).toList with
  | none => true
  | some (_, v, _) => !(trimCharList v).isEmpty

/-! ### Concrete scraper behaviours used by the C2 theorems -/

def c2photo (n : String) : GraphqlMediaItem :=
  { id_str := some n, mtype := some "photo",
    media_url_https := some ("https://pbs.twimg.com/media/" ++ n) }

def c2tweet : GraphqlLegacyTweet :=
  { id_str := some "t1", user_id_str := some "u1",
    extended_entities_media := some [c2photo "m1", c2photo "m2"] }

/-- A scraper behaviour whose single media page holds one tweet carrying
two photos. -/
def c2client : GraphqlClientModel :=
  { resolveUserId := .ok "u1",
    mediaPage := fun _ _ => .ok { tweets := [c2tweet] },
    v11Page := fun _ _ => .error "v11 off" }

def c2wmedia : GraphqlMediaItem :=
  { id_str := some "m9", mtype := some "photo",
    media_url_https := some "https://pbs.twimg.com/media/m9" }

def c2wtweet : GraphqlLegacyTweet :=
  { id_str := some "t9", user_id_str := some "u9",
    extended_entities_media := some [c2wmedia] }

/-- A page-size-honest scraper behaviour: one tweet per requested page. -/
def c2wclient : GraphqlClientModel :=
  { resolveUserId := .ok "u9",
    mediaPage := fun ps _ =>
      if 1 ≤ ps then .ok { tweets := [c2wtweet] } else .error "bad page size",
    v11Page := fun _ _ => .error "v11 off" }

def c2witnessItem : MediaItem :=
  { id := "t9_m9", tweetId := "t9", username := "bob", kind := .image,
    url := "https://pbs.twimg.com/media/m9?name=orig", createdAt := none,
    filenameHint := some "t9_m9" }

/-! ### Helper lemmas -/

theorem toNat_ofNat_valid (m : Nat) (h : m < 55296) : (Char.ofNat m).toNat = m := by
  rw [Char.ofNat, dif_pos (Or.inl h : m.isValidChar)]
  simp [Char.ofNatAux, Char.toNat, UInt32.ofNat', UInt32.toNat]

theorem toLower_ne_of_ne (c : Char) (d : Char) (hd : d.toNat < 97) (h : c ≠ d) :
    c.toLower ≠ d := by
  unfold Char.toLower
  by_cases hb : 65 ≤ c.toNat ∧ c.toNat ≤ 90
  · simp only [hb, and_true, if_pos, ge_iff_le, le_refl, and_self, if_true]
    intro he
    have hv : (Char.ofNat (c.toNat + 32)).toNat = c.toNat + 32 :=
      toNat_ofNat_valid _ (by omega)
    rw [he] at hv
    omega
  · simp only [ge_iff_le, hb, if_neg, if_false]
    exact h

theorem takeWhile_append_of_all {α : Type} {p : α → Bool} {l₁ l₂ : List α}
    (h : ∀ c ∈ l₁, p c = true) :
    (l₁ ++ l₂).takeWhile p = l₁ ++ l₂.takeWhile p := by
  induction l₁ with
  | nil => simp
  | cons a t ih =>
    rw [List.cons_append, List.takeWhile_cons, if_pos (h a (List.mem_cons_self a t)),
      List.cons_append]
    rw [ih fun c hc => h c (List.mem_cons_of_mem a hc)]

theorem mkToList (l : List Char) : (String.mk l).toList = l := rfl

theorem toListAppend (a b : String) : (a ++ b).toList = a.toList ++ b.toList := rfl

theorem mkAppendMk (a b : List Char) :
    String.mk a ++ String.mk b = String.mk (a ++ b) := rfl

/-- Character-class facts about the fields of a successfully parsed URL. -/
theorem parseUrl_fields (raw : String) (u : UrlParts) (h : parseUrl raw = some u) :
    (∀ c ∈ u.scheme.toList, notQueryDelim c = true) ∧
    (∀ c ∈ u.host.toList, notQueryDelim c = true) ∧
    (∀ c ∈ u.pathname.toList, notQueryDelim c = true) ∧
    (u.search.toList = [] ∨ u.search.toList.head? = some '?') ∧
    (u.hashPart.toList = [] ∨ u.hashPart.toList.head? = some '#') := by
  unfold parseUrl at h
  cases hs : schemeSplit raw.toList with
  | none => rw [hs] at h; cases h
  | some pr =>
    obtain ⟨schemeCs, rest⟩ := pr
    rw [hs] at h
    dsimp only at h
    by_cases h1 : schemeCs.isEmpty = true ∨ (!schemeCs.all isSchemeChar) = true
    · rw [if_pos] at h
      · cases h
      · simpa using h1
    · rw [if_neg] at h
      swap
      · simpa using h1
      by_cases h2 : (rest.takeWhile notPathDelim).isEmpty = true
      · rw [if_pos h2] at h; cases h
      · rw [if_neg h2] at h
        have hall : ∀ c ∈ schemeCs, isSchemeChar c = true := by
          push_neg at h1
          simpa [List.all_eq_true] using h1.2
        obtain rfl := (Option.some.injEq _ _).mp h.symm
        refine ⟨?_, ?_, ?_, ?_, ?_⟩
        · intro c hc
          rw [mkToList] at hc
          obtain ⟨c₀, hc₀, rfl⟩ := List.mem_map.mp hc
          have hsc := hall c₀ hc₀
          have hq : c₀ ≠ '?' := by
            intro he; subst he; simp [isSchemeChar] at hsc
          have hhash : c₀ ≠ '#' := by
            intro he; subst he; simp [isSchemeChar] at hsc
          simp only [notQueryDelim, Bool.and_eq_true, decide_eq_true_eq]
          exact ⟨toLower_ne_of_ne c₀ '?' (by decide) hq,
                 toLower_ne_of_ne c₀ '#' (by decide) hhash⟩
        · intro c hc
          rw [mkToList] at hc
          obtain ⟨c₀, hc₀, rfl⟩ := List.mem_map.mp hc
          have hpd : notPathDelim c₀ = true := List.mem_takeWhile_imp hc₀
          simp only [notPathDelim, Bool.and_eq_true, decide_eq_true_eq] at hpd
          simp only [notQueryDelim, Bool.and_eq_true, decide_eq_true_eq]
          exact ⟨toLower_ne_of_ne c₀ '?' (by decide) hpd.1.2,
                 toLower_ne_of_ne c₀ '#' (by decide) hpd.2⟩
        · by_cases hp : ((rest.dropWhile notPathDelim).takeWhile notQueryDelim).isEmpty = true
          · intro c hc
            rw [if_pos hp] at hc
            have hl : ("/" : String).toList = ['/'] := rfl
            rw [hl, List.mem_singleton] at hc
            subst hc
            decide
          · intro c hc
            rw [if_neg hp, mkToList] at hc
            exact List.mem_takeWhile_imp hc
        · rw [mkToList]
          cases hap : (rest.dropWhile notPathDelim).dropWhile notQueryDelim with
          | nil => left; simp
          | cons a t =>
            have hhead := List.head?_dropWhile_not notQueryDelim
              (rest.dropWhile notPathDelim)
            rw [hap] at hhead
            simp only [List.head?_cons] at hhead
            have ha : a = '?' ∨ a = '#' := by
              simp only [notQueryDelim, Bool.and_eq_false_iff,
                decide_eq_false_iff_not, not_not] at hhead
              exact hhead
            rcases ha with rfl | rfl
            · right
              rw [List.takeWhile_cons]
              simp
            · left
              rw [List.takeWhile_cons]
              simp
        · rw [mkToList]
          cases hap : ((rest.dropWhile notPathDelim).dropWhile notQueryDelim).dropWhile
              (fun c => c ≠ '#') with
          | nil => left; rfl
          | cons a t =>
            have hhead := List.head?_dropWhile_not (fun c => c ≠ '#')
              ((rest.dropWhile notPathDelim).dropWhile notQueryDelim)
            rw [hap] at hhead
            simp only [List.head?_cons] at hhead
            right
            simp only [List.head?_cons, Option.some.injEq]
            simpa using hhead

/-- Dropping the query and fragment of a parsed URL's serialization gives
exactly origin plus pathname. -/
theorem dropQueryAndFragment_serialize (raw : String) (u : UrlParts)
    (h : parseUrl raw = some u) :
    dropQueryAndFragment (urlSerialize u) = urlOrigin u ++ u.pathname := by
  obtain ⟨hscheme, hhost, hpath, hsearch, hhash⟩ := parseUrl_fields raw u h
  have hsep : ∀ c ∈ ("://" : String).toList, notQueryDelim c = true := by decide
  have hq : notQueryDelim '?' = false := by decide
  have hh : notQueryDelim '#' = false := by decide
  have hmid : (u.search.toList ++ u.hashPart.toList).takeWhile notQueryDelim = [] := by
    rcases hsearch with hs | hs
    · rw [hs, List.nil_append]
      rcases hhash with hhe | hhe
      · rw [hhe]; rfl
      · cases hl : u.hashPart.toList with
        | nil => rfl
        | cons a t =>
          rw [hl] at hhe
          simp only [List.head?_cons, Option.some.injEq] at hhe
          subst hhe
          rw [List.takeWhile_cons, hh]
          simp
    · cases hl : u.search.toList with
      | nil => rw [hl] at hs; cases hs
      | cons a t =>
        rw [hl] at hs
        simp only [List.head?_cons, Option.some.injEq] at hs
        subst hs
        rw [List.cons_append, List.takeWhile_cons, hq]
        simp
  have hlist : (urlSerialize u).toList =
      u.scheme.toList ++ (("://" : String).toList ++ (u.host.toList ++
        (u.pathname.toList ++ (u.search.toList ++ u.hashPart.toList)))) := by
    simp only [urlSerialize, toListAppend, List.append_assoc]
  unfold dropQueryAndFragment
  rw [hlist, takeWhile_append_of_all hscheme, takeWhile_append_of_all hsep,
      takeWhile_append_of_all hhost, takeWhile_append_of_all hpath, hmid,
      List.append_nil]
  have hr : urlOrigin u ++ u.pathname =
      String.mk (u.scheme.toList ++ (("://" : String).toList ++
        (u.host.toList ++ u.pathname.toList))) := by
    have h1 : urlOrigin u ++ u.pathname =
        String.mk (((u.scheme.toList ++ ("://" : String).toList) ++ u.host.toList)
          ++ u.pathname.toList) := rfl
    rw [h1]
    exact congrArg String.mk (by simp only [List.append_assoc])
  rw [hr]

theorem applyOutcome_counts (res : DownloadMediaBatchResult) (oc : ItemOutcome) :
    (applyOutcome res oc).total = res.total ∧
    (applyOutcome res oc).downloaded + (applyOutcome res oc).failed +
      (applyOutcome res oc).skipped =
      res.downloaded + res.failed + res.skipped + 1 ∧
    (applyOutcome res oc).failureDetails.length + res.failed =
      (applyOutcome res oc).failed + res.failureDetails.length := by
  cases oc <;> simp [applyOutcome] <;> omega

theorem runWorkerFold_inv (o : DlOracles) (dir : String) (rc : Nat) (un : String) :
    ∀ (items : List MediaItem) (res : DownloadMediaBatchResult) (keys : List String),
      (runWorkerFold o dir rc un items res keys).1.total = res.total ∧
      (runWorkerFold o dir rc un items res keys).1.downloaded +
        (runWorkerFold o dir rc un items res keys).1.failed +
        (runWorkerFold o dir rc un items res keys).1.skipped =
        res.downloaded + res.failed + res.skipped + items.length ∧
      (runWorkerFold o dir rc un items res keys).1.failureDetails.length + res.failed =
        (runWorkerFold o dir rc un items res keys).1.failed +
          res.failureDetails.length := by
  intro items
  induction items with
  | nil =>
    intro res keys
    refine ⟨rfl, by simp [runWorkerFold], by simp [runWorkerFold]; omega⟩
  | cons item rest ih =>
    intro res keys
    rw [runWorkerFold]
    have happly := applyOutcome_counts res (processOne o item dir rc un keys).1
    have hrec := ih (applyOutcome res (processOne o item dir rc un keys).1)
      (processOne o item dir rc un keys).2
    refine ⟨?_, ?_, ?_⟩
    · rw [hrec.1, happly.1]
    · rw [hrec.2.1, List.length_cons]
      omega
    · have h1 := hrec.2.2
      have h2 := happly.2.2
      omega

/-- C1: for every `downloadMediaBatch` call (any item list, ledger state
and I/O behaviour) the returned result satisfies
`downloaded + failed + skipped = total`, `total` equals the number of
input items, and `failureDetails.length = failed`; each input item is
counted in exactly one of the three outcome counters. -/
theorem c1_result_conservation (o : DlOracles) (initialKeys : List String)
    (items : List MediaItem) (outputDir : String) (rc : Option Nat)
    (un : Option String) :
    (downloadMediaBatch o initialKeys items outputDir rc un).1.downloaded +
      (downloadMediaBatch o initialKeys items outputDir rc un).1.failed +
      (downloadMediaBatch o initialKeys items outputDir rc un).1.skipped =
      (downloadMediaBatch o initialKeys items outputDir rc un).1.total ∧
    (downloadMediaBatch o initialKeys items outputDir rc un).1.total =
      items.length ∧
    (downloadMediaBatch o initialKeys items outputDir rc un).1.failureDetails.length =
      (downloadMediaBatch o initialKeys items outputDir rc un).1.failed := by
  unfold downloadMediaBatch
  by_cases hz : items.length = 0
  · rw [if_pos hz]
    simp [hz]
  · rw [if_neg hz]
    obtain ⟨h1, h2, h3⟩ := runWorkerFold_inv o outputDir (rc.getD 2)
      (un.getD "unknown") items
      { total := items.length, downloaded := 0, failed := 0, skipped := 0,
        failureDetails := [] } initialKeys
    simp at h1 h2 h3
    exact ⟨by omega, h1, by omega⟩

/-- C3 counterexample: a thrown value that is not an `Error` object — here
the string value rendered "boom" — carries no HTTP status and its text
contains none of "network" / "timeout" / "fetch", so by the claim the
failure must be terminal on the first attempt; yet `downloadWithRetries`
retries it (the download succeeds on the second attempt). -/
theorem c3_counterexample_nonerror_retried :
    downloadWithRetries
        (fun n => if n = 0 then .error (.nonErrorValue "boom") else .ok ()) 1 =
      .ok 2 ∧
    claimRetryCondition (.nonErrorValue "boom") = false := by
  constructor
  · rfl
  · rfl

/-- C3 (amended): a failed attempt is retried only when the thrown value
is not an `Error` object, or the error has no HTTP status and its message
implies a transport issue (contains "network", "timeout" or "fetch"), or
the HTTP status is 429 or at least 500; every thrown `Error` not
satisfying this makes the failure terminal on the first attempt. -/
theorem c3_amended_retry_policy :
    (∀ e, shouldRetry e = (e.isNonError || claimRetryCondition e)) ∧
    (∀ (ar : Nat → Except ThrownValue Unit) (rc : Nat) (e : ThrownValue),
      ar 0 = .error e → (e.isNonError || claimRetryCondition e) = false →
      downloadWithRetries ar rc = .error (e, 1)) := by
  have hcond : ∀ e, shouldRetry e = (ThrownValue.isNonError e || claimRetryCondition e) := by
    intro e
    cases e with
    | nonErrorValue c => simp [shouldRetry, ThrownValue.isNonError]
    | errValue status code message =>
      cases status with
      | none => simp [shouldRetry, ThrownValue.isNonError, claimRetryCondition]
      | some s =>
        simp only [shouldRetry, ThrownValue.isNonError, claimRetryCondition,
          Bool.false_or]
        by_cases h1 : s = 429
        · simp [h1]
        · by_cases h2 : s ≥ 500
          · simp [h1, h2]
          · simp [h1, h2]
  refine ⟨hcond, ?_⟩
  intro ar rc e h0 hfalse
  have hsr : shouldRetry e = false := by rw [hcond e, hfalse]
  unfold downloadWithRetries downloadWithRetriesGo
  rw [h0]
  simp [hsr]

/-- C3 amended, witness: an HTTP 404 error is terminal on the first
attempt whatever `retryCount` was requested. -/
theorem c3_amended_retry_policy_witness :
    downloadWithRetries (fun _ => .error (.errValue (some 404) none "HTTP 404")) 2 =
      .error (.errValue (some 404) none "HTTP 404", 1) :=
  c3_amended_retry_policy.2 _ 2 _ rfl (by rfl)

/-- C5 counterexample: the code trims the username before lowercasing (and
trims the tweetId), so for a username with surrounding whitespace the
ledger key differs from the claimed
`lower(username)|tweetId|kind|normalize-url-for-key(url)`. -/
theorem c5_counterexample_untrimmed_username :
    buildDownloadedMediaKey
        { id := "m", tweetId := "t1", username := " Alice", kind := .image,
          url := "https://h/p" } =
      "alice|t1|image|https://h/p" ∧
    specClaimMediaKey
        { id := "m", tweetId := "t1", username := " Alice", kind := .image,
          url := "https://h/p" } =
      " alice|t1|image|https://h/p" ∧
    buildDownloadedMediaKey
        { id := "m", tweetId := "t1", username := " Alice", kind := .image,
          url := "https://h/p" } ≠
      specClaimMediaKey
        { id := "m", tweetId := "t1", username := " Alice", kind := .image,
          url := "https://h/p" } := by
  refine ⟨rfl, rfl, ?_⟩
  intro h
  rw [show buildDownloadedMediaKey
        { id := "m", tweetId := "t1", username := " Alice", kind := .image,
          url := "https://h/p" } = "alice|t1|image|https://h/p" from rfl] at h
  rw [show specClaimMediaKey
        { id := "m", tweetId := "t1", username := " Alice", kind := .image,
          url := "https://h/p" } = " alice|t1|image|https://h/p" from rfl] at h
  simp at h

/-- C5 (amended): for every `MediaItem` the ledger key equals the
trimmed-and-lowercased username, the trimmed tweetId, the kind, and — when
the URL parses — the parsed URL's serialization with query string and
fragment dropped (scheme and host lowercased by parsing), else the raw
URL, joined by a pipe. -/
theorem c5_amended_media_key (item : MediaItem) :
    buildDownloadedMediaKey item = specAmendedMediaKey item := by
  unfold buildDownloadedMediaKey specAmendedMediaKey normalizeMediaUrlForCacheKey
  cases h : parseUrl item.url with
  | none => rfl
  | some u =>
    dsimp only
    rw [dropQueryAndFragment_serialize item.url u h]

/-- C6 counterexample: the ledger lives under `.twmd-cache`, not under the
claimed `.engine-cache` directory. -/
theorem c6_counterexample_cache_dir :
    getDownloadedMediaCachePath "out" = "out/.twmd-cache/downloaded-media.json" ∧
    getDownloadedMediaCachePath "out" ≠ "out/.engine-cache/downloaded-media.json" := by
  constructor
  · rfl
  · intro h
    rw [show getDownloadedMediaCachePath "out" =
        "out/.twmd-cache/downloaded-media.json" from rfl] at h
    simp at h

/-- C6 (amended): for every output directory the ledger read and written
by `downloadMediaBatch` is `<outDir>/.twmd-cache/downloaded-media.json`,
holding a payload with `version = 1`, an `updatedAt` stamp and the
`mediaKeys` list, and it is replaced by writing `<path>.tmp` and then
renaming it over the final path. -/
theorem c6_amended_ledger_file (outputDir : String) (mediaKeys : List String)
    (now : String) :
    getDownloadedMediaCachePath outputDir =
      outputDir ++ "/.twmd-cache/downloaded-media.json" ∧
    persistDownloadedMediaCachePlan (getDownloadedMediaCachePath outputDir)
        mediaKeys now =
      [ .mkdirRecursive (dirnameOf (getDownloadedMediaCachePath outputDir)),
        .writeFileOp (getDownloadedMediaCachePath outputDir ++ ".tmp")
          { version := 1, updatedAt := now, mediaKeys := mediaKeys },
        .renameOp (getDownloadedMediaCachePath outputDir ++ ".tmp")
          (getDownloadedMediaCachePath outputDir) ] := by
  constructor
  · show pathJoin (pathJoin outputDir ".twmd-cache") downloadedMediaCacheFileName = _
    unfold pathJoin downloadedMediaCacheFileName
    rw [String.append_assoc, String.append_assoc, String.append_assoc]
    rfl
  · rfl

/-- C7: the claimed filename closure fails — `buildMediaFilename` pipes
the URL-derived extension into the filename unsanitized, so the item with
URL `https://host/x.b|c` produces the filename `t_m.b|c`, which contains
the forbidden character `|`. -/
theorem c7_filename_forbidden_char :
    buildMediaFilename
        { id := "m", tweetId := "t", username := "alice", kind := .image,
          url := "https://host/x.b|c" } = "t_m.b|c" ∧
    '|' ∈ ("t_m.b|c" : String).toList ∧
    isWindowsForbiddenChar '|' = true := by
  refine ⟨rfl, ?_, rfl⟩
  decide

theorem jsSetDedup_go_subset : ∀ (seen l : List String),
    ∀ k ∈ jsSetDedup.go seen l, k ∈ l := by
  intro seen l
  induction l generalizing seen with
  | nil => intro k hk; simp [jsSetDedup.go] at hk
  | cons x xs ih =>
    intro k hk
    rw [jsSetDedup.go] at hk
    by_cases hx : x ∈ seen
    · rw [if_pos hx] at hk
      exact List.mem_cons_of_mem x (ih seen k hk)
    · rw [if_neg hx] at hk
      rcases List.mem_cons.mp hk with h | h
      · exact h ▸ List.mem_cons_self x xs
      · exact List.mem_cons_of_mem x (ih (x :: seen) k h)

theorem jsSetDedup_subset (l : List String) : ∀ k ∈ jsSetDedup l, k ∈ l :=
  jsSetDedup_go_subset [] l

theorem load_nonnull_eq (j : Json) (hj : j ≠ Json.null) :
    loadDownloadedMediaCacheKeys (some j) =
      (if !isVersionOne (jsonField j "version") then []
       else match jsonField j "mediaKeys" with
         | some (.jarr elems) => jsSetDedup (elems.filterMap jsonStringEntry)
         | _ => []) := by
  cases j with
  | null => exact absurd rfl hj
  | jbool b => rfl
  | jnum n => rfl
  | jstr s => rfl
  | jarr elems => rfl
  | jobj fields => rfl

theorem load_shape (r : Option Json) :
    loadDownloadedMediaCacheKeys r = [] ∨
    ∃ elems : List Json, loadDownloadedMediaCacheKeys r =
      jsSetDedup (elems.filterMap jsonStringEntry) := by
  match r with
  | none => left; rfl
  | some Json.null => left; rfl
  | some (Json.jbool b) => left; rfl
  | some (Json.jnum n) => left; rfl
  | some (Json.jstr s) => left; rfl
  | some (Json.jarr a) => left; rfl
  | some (Json.jobj fields) =>
    rw [load_nonnull_eq _ (by intro h; cases h)]
    by_cases hv : isVersionOne (jsonField (Json.jobj fields) "version")
    · rw [if_neg (by simp [hv])]
      match hm : jsonField (Json.jobj fields) "mediaKeys" with
      | some (Json.jarr elems) => right; exact ⟨elems, rfl⟩
      | some Json.null => left; rfl
      | some (Json.jbool b) => left; rfl
      | some (Json.jnum n) => left; rfl
      | some (Json.jstr s) => left; rfl
      | some (Json.jobj f) => left; rfl
      | none => left; rfl
    · rw [if_pos (by simp [hv])]
      left; rfl

/-- C10: loading the downloaded-media ledger never fails — a missing or
unparseable file, a parsed `null`, a version other than the number 1, or
a non-array `mediaKeys` all yield the empty key set; in the good case
non-string and empty-string entries are dropped, so every loaded key is a
non-empty string. -/
theorem c10_load_ledger_total (r : Option Json) :
    (∀ k ∈ loadDownloadedMediaCacheKeys r, 0 < k.length) ∧
    loadDownloadedMediaCacheKeys none = [] ∧
    loadDownloadedMediaCacheKeys (some .null) = [] ∧
    (∀ j, r = some j → isVersionOne (jsonField j "version") = false →
      loadDownloadedMediaCacheKeys r = []) ∧
    (∀ j, r = some j → j ≠ .null →
      (∀ elems, jsonField j "mediaKeys" ≠ some (.jarr elems)) →
      loadDownloadedMediaCacheKeys r = []) ∧
    (∀ (j : Json) (elems : List Json), r = some j → j ≠ .null →
      isVersionOne (jsonField j "version") = true →
      jsonField j "mediaKeys" = some (.jarr elems) →
      loadDownloadedMediaCacheKeys r =
        jsSetDedup (elems.filterMap jsonStringEntry)) := by
  refine ⟨?_, rfl, rfl, ?_, ?_, ?_⟩
  · intro k hk
    rcases load_shape r with h | ⟨elems, h⟩
    · rw [h] at hk; cases hk
    · rw [h] at hk
      have hk2 : k ∈ elems.filterMap jsonStringEntry := jsSetDedup_subset _ k hk
      obtain ⟨e, _, he⟩ := List.mem_filterMap.mp hk2
      cases e with
      | jstr s =>
        simp only [jsonStringEntry] at he
        by_cases hs : s.length > 0
        · rw [if_pos hs] at he
          cases he
          exact hs
        · rw [if_neg hs] at he
          cases he
      | null => cases he
      | jbool b => cases he
      | jnum n => cases he
      | jarr a => cases he
      | jobj f => cases he
  · intro j hj hv
    subst hj
    cases j with
    | null => rfl
    | jbool b => rfl
    | jnum n => rfl
    | jstr s => rfl
    | jarr a => rfl
    | jobj f =>
      rw [load_nonnull_eq _ (by intro h; cases h)]
      simp [hv]
  · intro j hj hjne hnoarr
    subst hj
    rw [load_nonnull_eq j hjne]
    by_cases hv : isVersionOne (jsonField j "version")
    · rw [if_neg (by simp [hv])]
      match hm : jsonField j "mediaKeys" with
      | some (Json.jarr elems) => exact absurd hm (hnoarr elems)
      | some Json.null => rfl
      | some (Json.jbool b) => rfl
      | some (Json.jnum n) => rfl
      | some (Json.jstr s) => rfl
      | some (Json.jobj f) => rfl
      | none => rfl
    · rw [if_pos (by simp [hv])]
  · intro j elems hj hjne hv hm
    subst hj
    rw [load_nonnull_eq j hjne, if_neg (by simp [hv]), hm]

/-- C10 witness: a concrete well-formed ledger with a non-string entry, an
empty-string entry and a duplicate key loads to exactly the de-duplicated
non-empty string keys, and a version-2 ledger loads empty. -/
theorem c10_load_ledger_total_witness :
    loadDownloadedMediaCacheKeys
        (some (.jobj [("version", .jnum 1),
          ("mediaKeys", .jarr [.jstr "a", .jstr "", .jnum 3, .jstr "a", .jstr "b"])])) =
      ["a", "b"] ∧
    loadDownloadedMediaCacheKeys
        (some (.jobj [("version", .jnum 2), ("mediaKeys", .jarr [.jstr "a"])])) = [] := by
  constructor
  · rw [(c10_load_ledger_total
      (some (.jobj [("version", .jnum 1),
        ("mediaKeys", .jarr [.jstr "a", .jstr "", .jnum 3, .jstr "a", .jstr "b"])]))).2.2.2.2.2
      _ [.jstr "a", .jstr "", .jnum 3, .jstr "a", .jstr "b"] rfl
      (by intro h; cases h) rfl rfl]
    rfl
  · exact (c10_load_ledger_total
      (some (.jobj [("version", .jnum 2), ("mediaKeys", .jarr [.jstr "a"])]))).2.2.2.1
      _ rfl rfl

/-! ### C2: fetchUserMedia -/

theorem dedupeMediaGo_subset : ∀ (seen : List String) (items : List MediaItem),
    ∀ i ∈ dedupeMediaGo seen items, i ∈ items := by
  intro seen items
  induction items generalizing seen with
  | nil => intro i hi; cases hi
  | cons a rest ih =>
    intro i hi
    rw [dedupeMediaGo] at hi
    by_cases ha : dedupeKeyOf a ∈ seen
    · rw [if_pos ha] at hi
      exact List.mem_cons_of_mem a (ih seen i hi)
    · rw [if_neg ha] at hi
      rcases List.mem_cons.mp hi with h | h
      · exact h ▸ List.mem_cons_self a rest
      · exact List.mem_cons_of_mem a (ih _ i h)

theorem dedupeMediaGo_nodup : ∀ (seen : List String) (items : List MediaItem),
    ((dedupeMediaGo seen items).map dedupeKeyOf).Nodup ∧
    ∀ k ∈ (dedupeMediaGo seen items).map dedupeKeyOf, k ∉ seen := by
  intro seen items
  induction items generalizing seen with
  | nil => exact ⟨List.nodup_nil, by intro k hk; cases hk⟩
  | cons a rest ih =>
    rw [dedupeMediaGo]
    by_cases ha : dedupeKeyOf a ∈ seen
    · rw [if_pos ha]
      exact ih seen
    · rw [if_neg ha]
      obtain ⟨hnd, hnotin⟩ := ih (dedupeKeyOf a :: seen)
      constructor
      · rw [List.map_cons, List.nodup_cons]
        refine ⟨?_, hnd⟩
        intro hmem
        exact hnotin _ hmem (List.mem_cons_self _ _)
      · intro k hk
        rw [List.map_cons] at hk
        rcases List.mem_cons.mp hk with rfl | h
        · exact ha
        · intro hks
          exact hnotin k h (List.mem_cons_of_mem _ hks)

theorem dedupeMedia_nodup (items : List MediaItem) :
    ((dedupeMedia items).map dedupeKeyOf).Nodup :=
  (dedupeMediaGo_nodup [] items).1

theorem dedupeMedia_subset (items : List MediaItem) :
    ∀ i ∈ dedupeMedia items, i ∈ items :=
  dedupeMediaGo_subset [] items

theorem mapMediaGo_facts (tweetId : String) (createdAt : Option String)
    (username : String) (allowedKinds : List MediaKind) :
    ∀ (medias : List GraphqlMediaItem) (index : Nat),
      ∀ i ∈ mapMediaGo tweetId createdAt username allowedKinds medias index,
        i.kind ∈ allowedKinds ∧ i.tweetId = tweetId := by
  intro medias
  induction medias with
  | nil => intro index i hi; cases hi
  | cons media rest ih =>
    intro index i hi
    rw [mapMediaGo] at hi
    dsimp only at hi
    rcases hu : (if media.mtype = some "photo" then
        let u := normalizeImageUrl ((media.media_url_https).getD
          ((media.media_url).getD ""))
        if u = "" then none else some u
      else if media.mtype = some "video" || media.mtype = some "animated_gif" then
        pickBestVideoVariant media
      else none : Option String) with _ | u
    · rw [hu] at hi
      exact ih index i hi
    · rw [hu] at hi
      dsimp only at hi
      rcases hk : mapMediaKind media u with _ | kind
      · rw [hk] at hi
        exact ih index i hi
      · rw [hk] at hi
        dsimp only at hi
        by_cases hmem : kind ∈ allowedKinds
        · rw [if_pos hmem] at hi
          rcases List.mem_cons.mp hi with rfl | h
          · exact ⟨hmem, rfl⟩
          · exact ih (index + 1) i h
        · rw [if_neg hmem] at hi
          exact ih index i hi

theorem mapGraphqlTweet_facts (tweet : GraphqlLegacyTweet)
    (expectedUserId username : String) (allowedKinds : List MediaKind) :
    ∀ i ∈ mapGraphqlTweetToMediaItems tweet expectedUserId username allowedKinds,
      i.kind ∈ allowedKinds ∧ tweet.id_str = some i.tweetId := by
  intro i hi
  unfold mapGraphqlTweetToMediaItems at hi
  rcases ht : tweet.id_str with _ | tid
  · rw [ht] at hi; cases hi
  · rw [ht] at hi
    dsimp only at hi
    by_cases h1 : tid = ""
    · rw [if_pos h1] at hi; cases hi
    · rw [if_neg h1] at hi
      by_cases h2 : (match tweet.user_id_str with
          | some uid => uid ≠ "" && uid ≠ expectedUserId
          | none => false) = true
      · rw [if_pos h2] at hi; cases hi
      · rw [if_neg h2] at hi
        by_cases h3 : tweet.has_retweeted_status_result = true
        · rw [if_pos h3] at hi; cases hi
        · rw [if_neg h3] at hi
          by_cases h4 : ((tweet.extended_entities_media).getD
              ((tweet.entities_media).getD [])).isEmpty = true
          · rw [if_pos h4] at hi; cases hi
          · rw [if_neg h4] at hi
            have := mapMediaGo_facts tid tweet.created_at username allowedKinds
              _ 0 i hi
            exact ⟨this.1, by rw [this.2]⟩

theorem mapV11Tweet_facts (tweet : V11Status)
    (normalizedUsername : String) (allowedKinds : List MediaKind) :
    ∀ i ∈ mapV11TweetToMediaItems tweet normalizedUsername allowedKinds,
      i.kind ∈ allowedKinds ∧ tweet.id_str = some i.tweetId := by
  intro i hi
  unfold mapV11TweetToMediaItems at hi
  rcases ht : tweet.id_str with _ | tid
  · rw [ht] at hi; cases hi
  · rw [ht] at hi
    dsimp only at hi
    by_cases h1 : tid = ""
    · rw [if_pos h1] at hi; cases hi
    · rw [if_neg h1] at hi
      by_cases h2 : tweet.has_retweeted_status = true
      · rw [if_pos h2] at hi; cases hi
      · rw [if_neg h2] at hi
        by_cases h3 : (match (tweet.user.bind V11User.screen_name).map strLower with
            | some a => a ≠ "" && a ≠ normalizedUsername
            | none => false) = true
        · rw [if_pos h3] at hi; cases hi
        · rw [if_neg h3] at hi
          by_cases h4 : ((tweet.extended_entities_media).getD
              ((tweet.entities_media).getD [])).isEmpty = true
          · rw [if_pos h4] at hi; cases hi
          · rw [if_neg h4] at hi
            have := mapMediaGo_facts tid tweet.created_at normalizedUsername
              allowedKinds _ 0 i hi
            exact ⟨this.1, by rw [this.2]⟩

theorem flatMap_tweetIds_card {T : Type} (f : T → List MediaItem)
    (g : T → Option String)
    (hf : ∀ t, ∀ i ∈ f t, g t = some i.tweetId) (ts : List T) :
    ((ts.flatMap f).map MediaItem.tweetId).toFinset.card ≤ ts.length := by
  have hsub : ((ts.flatMap f).map MediaItem.tweetId).toFinset ⊆
      (ts.filterMap g).toFinset := by
    intro x hx
    rw [List.mem_toFinset] at hx ⊢
    obtain ⟨i, hi, rfl⟩ := List.mem_map.mp hx
    obtain ⟨t, ht, hit⟩ := List.mem_flatMap.mp hi
    exact List.mem_filterMap.mpr ⟨t, ht, hf t i hit⟩
  calc ((ts.flatMap f).map MediaItem.tweetId).toFinset.card
      ≤ (ts.filterMap g).toFinset.card := Finset.card_le_card hsub
    _ ≤ (ts.filterMap g).length := List.toFinset_card_le _
    _ ≤ ts.length := List.length_filterMap_le _ _

theorem card_map_append (f : MediaItem → String) (a b : List MediaItem) :
    ((a ++ b).map f).toFinset.card ≤
      (a.map f).toFinset.card + (b.map f).toFinset.card := by
  have hsub : ((a ++ b).map f).toFinset ⊆ (a.map f).toFinset ∪ (b.map f).toFinset := by
    intro x hx
    simp only [List.mem_toFinset, List.mem_map, List.mem_append,
      Finset.mem_union] at hx ⊢
    obtain ⟨i, hi, rfl⟩ := hx
    rcases hi with h | h
    · exact Or.inl ⟨i, h, rfl⟩
    · exact Or.inr ⟨i, h, rfl⟩
  exact le_trans (Finset.card_le_card hsub) (Finset.card_union_le _ _)

theorem fetchViaGraphqlGo_facts (client : GraphqlClientModel)
    (userId username : String) (allowedKinds : List MediaKind)
    (hg : ∀ ps cur page, client.mediaPage ps cur = .ok page →
      (page.tweets.length : Int) ≤ ps) :
    ∀ (fuel : Nat) (remaining : Int) (cursor : Option String)
      (items : List MediaItem),
      fetchViaGraphqlGo client userId username allowedKinds fuel remaining
        cursor = .ok items →
      (((items.map MediaItem.tweetId).toFinset.card : Int) ≤ max remaining 0 ∧
       ∀ i ∈ items, i.kind ∈ allowedKinds) := by
  intro fuel
  induction fuel with
  | zero =>
    intro remaining cursor items h
    rw [fetchViaGraphqlGo] at h
    cases h
    exact ⟨by simp, by intro i hi; cases hi⟩
  | succ fuel ih =>
    intro remaining cursor items h
    rw [fetchViaGraphqlGo] at h
    by_cases hr : remaining ≤ 0
    · rw [if_pos hr] at h
      cases h
      exact ⟨by simp, by intro i hi; cases hi⟩
    · rw [if_neg hr] at h
      rcases hpage : client.mediaPage (min 100 remaining) cursor with e | page
      · rw [hpage] at h; cases h
      · rw [hpage] at h
        dsimp only at h
        have hlen : (page.tweets.length : Int) ≤ min 100 remaining := hg _ _ _ hpage
        by_cases hemp : page.tweets.isEmpty = true
        · rw [if_pos hemp] at h
          cases h
          exact ⟨by simp, by intro i hi; cases hi⟩
        · rw [if_neg hemp] at h
          have hmin : (min (100 : Int) remaining) ≤ remaining := min_le_right _ _
          have hnewcard : (((page.tweets.flatMap fun t =>
              mapGraphqlTweetToMediaItems t userId username allowedKinds).map
                MediaItem.tweetId).toFinset.card : Int) ≤
              (page.tweets.length : Int) := by
            have := flatMap_tweetIds_card
              (fun t => mapGraphqlTweetToMediaItems t userId username allowedKinds)
              GraphqlLegacyTweet.id_str
              (fun t i hi => (mapGraphqlTweet_facts t userId username allowedKinds i hi).2)
              page.tweets
            exact_mod_cast this
          have hnewkinds : ∀ i ∈ (page.tweets.flatMap fun t =>
              mapGraphqlTweetToMediaItems t userId username allowedKinds),
              i.kind ∈ allowedKinds := by
            intro i hi
            obtain ⟨t, _, hit⟩ := List.mem_flatMap.mp hi
            exact (mapGraphqlTweet_facts t userId username allowedKinds i hit).1
          rcases hc : page.nextCursor with _ | nc
          · rw [hc] at h
            dsimp only at h
            cases h
            exact ⟨by omega, hnewkinds⟩
          · rw [hc] at h
            dsimp only at h
            by_cases hstop : (nc = "" || some nc = cursor) = true
            · rw [if_pos hstop] at h
              cases h
              exact ⟨by omega, hnewkinds⟩
            · rw [if_neg hstop] at h
              rcases hrec : fetchViaGraphqlGo client userId username allowedKinds
                  fuel (remaining - page.tweets.length) (some nc) with e | rest
              · rw [hrec] at h; cases h
              · rw [hrec] at h
                dsimp only at h
                cases h
                obtain ⟨hcard, hkinds⟩ := ih _ _ _ hrec
                constructor
                · have happ := card_map_append MediaItem.tweetId
                    (page.tweets.flatMap fun t =>
                      mapGraphqlTweetToMediaItems t userId username allowedKinds)
                    rest
                  have happ2 : ((((page.tweets.flatMap fun t =>
                      mapGraphqlTweetToMediaItems t userId username allowedKinds)
                        ++ rest).map MediaItem.tweetId).toFinset.card : Int) ≤
                      (((page.tweets.flatMap fun t =>
                        mapGraphqlTweetToMediaItems t userId username
                          allowedKinds).map MediaItem.tweetId).toFinset.card : Int) +
                      ((rest.map MediaItem.tweetId).toFinset.card : Int) := by
                    exact_mod_cast happ
                  omega
                · intro i hi
                  rcases List.mem_append.mp hi with h | h
                  · exact hnewkinds i h
                  · exact hkinds i h

theorem fetchViaV11Go_facts (client : GraphqlClientModel)
    (normalizedUsername : String) (allowedKinds : List MediaKind)
    (hv : ∀ ps mid page, client.v11Page ps mid = .ok page →
      (page.length : Int) ≤ ps) :
    ∀ (fuel : Nat) (remaining : Int) (maxId : Option String)
      (items : List MediaItem),
      fetchViaV11Go client normalizedUsername allowedKinds fuel remaining
        maxId = .ok items →
      (((items.map MediaItem.tweetId).toFinset.card : Int) ≤ max remaining 0 ∧
       ∀ i ∈ items, i.kind ∈ allowedKinds) := by
  intro fuel
  induction fuel with
  | zero =>
    intro remaining maxId items h
    rw [fetchViaV11Go] at h
    cases h
    exact ⟨by simp, by intro i hi; cases hi⟩
  | succ fuel ih =>
    intro remaining maxId items h
    rw [fetchViaV11Go] at h
    by_cases hr : remaining ≤ 0
    · rw [if_pos hr] at h
      cases h
      exact ⟨by simp, by intro i hi; cases hi⟩
    · rw [if_neg hr] at h
      rcases hpage : client.v11Page (min 200 remaining) maxId with e | page
      · rw [hpage] at h; cases h
      · rw [hpage] at h
        dsimp only at h
        have hlen : (page.length : Int) ≤ min 200 remaining := hv _ _ _ hpage
        by_cases hemp : page.isEmpty = true
        · rw [if_pos hemp] at h
          cases h
          exact ⟨by simp, by intro i hi; cases hi⟩
        · rw [if_neg hemp] at h
          have hmin : (min (200 : Int) remaining) ≤ remaining := min_le_right _ _
          have hnewcard : (((page.flatMap fun t =>
              mapV11TweetToMediaItems t normalizedUsername allowedKinds).map
                MediaItem.tweetId).toFinset.card : Int) ≤
              (page.length : Int) := by
            have := flatMap_tweetIds_card
              (fun t => mapV11TweetToMediaItems t normalizedUsername allowedKinds)
              V11Status.id_str
              (fun t i hi => (mapV11Tweet_facts t normalizedUsername allowedKinds i hi).2)
              page
            exact_mod_cast this
          have hnewkinds : ∀ i ∈ (page.flatMap fun t =>
              mapV11TweetToMediaItems t normalizedUsername allowedKinds),
              i.kind ∈ allowedKinds := by
            intro i hi
            obtain ⟨t, _, hit⟩ := List.mem_flatMap.mp hi
            exact (mapV11Tweet_facts t normalizedUsername allowedKinds i hit).1
          rcases hlast : page.getLast?.bind V11Status.id_str with _ | lastId
          · rw [hlast] at h
            dsimp only at h
            cases h
            exact ⟨by omega, hnewkinds⟩
          · rw [hlast] at h
            dsimp only at h
            by_cases hstop : (lastId = "" || !(lastId.toList.all Char.isDigit)) = true
            · rw [if_pos hstop] at h
              cases h
              exact ⟨by omega, hnewkinds⟩
            · rw [if_neg hstop] at h
              by_cases hsame : toString ((digitsToNat lastId.toList : Int) - 1) = lastId
              · rw [if_pos hsame] at h
                cases h
                exact ⟨by omega, hnewkinds⟩
              · rw [if_neg hsame] at h
                rcases hrec : fetchViaV11Go client normalizedUsername allowedKinds
                    fuel (remaining - page.length)
                    (some (toString ((digitsToNat lastId.toList : Int) - 1)))
                  with e | rest
                · rw [hrec] at h; cases h
                · rw [hrec] at h
                  dsimp only at h
                  cases h
                  obtain ⟨hcard, hkinds⟩ := ih _ _ _ hrec
                  constructor
                  · have happ := card_map_append MediaItem.tweetId
                      (page.flatMap fun t =>
                        mapV11TweetToMediaItems t normalizedUsername allowedKinds)
                      rest
                    have happ2 : ((((page.flatMap fun t =>
                        mapV11TweetToMediaItems t normalizedUsername allowedKinds)
                          ++ rest).map MediaItem.tweetId).toFinset.card : Int) ≤
                        (((page.flatMap fun t =>
                          mapV11TweetToMediaItems t normalizedUsername
                            allowedKinds).map MediaItem.tweetId).toFinset.card : Int) +
                        ((rest.map MediaItem.tweetId).toFinset.card : Int) := by
                      exact_mod_cast happ
                    omega
                  · intro i hi
                    rcases List.mem_append.mp hi with h | h
                    · exact hnewkinds i h
                    · exact hkinds i h

theorem dedupe_card_le (collected : List MediaItem) :
    ((dedupeMedia collected).map MediaItem.tweetId).toFinset.card ≤
      ((collected.map MediaItem.tweetId).toFinset.card) := by
  apply Finset.card_le_card
  intro x hx
  rw [List.mem_toFinset] at hx ⊢
  obtain ⟨i, hi, rfl⟩ := List.mem_map.mp hx
  exact List.mem_map.mpr ⟨i, dedupeMedia_subset collected i hi, rfl⟩

/-- C2 counterexample: with `maxTweets = 1` and a scraper behaviour whose
single tweet carries two photos, `fetchUserMedia` returns two media items
— the pagination loop counts tweets, not media items, so the returned
list can exceed `maxTweets` items. -/
theorem c2_counterexample_items_exceed_max_tweets :
    (fetchUserMedia c2client true
        { username := "alice", maxTweets := some 1,
          mediaKinds := [.image] }).toOption.map List.length = some 2 ∧
    ¬(2 ≤ 1) := by
  exact ⟨rfl, by decide⟩

/-- C2 (amended): for every handle, every `maxTweets ≥ 0` and every
scraper behaviour whose pages never exceed the requested page size, a
successful `fetchUserMedia` returns a list that is de-duplicated by
`(tweetId, kind, url)`, contains only the caller's allowed kinds, and
draws from at most `maxTweets` distinct tweets (the item count itself may
exceed `maxTweets`). -/
theorem c2_amended_fetch_user_media (client : GraphqlClientModel)
    (init : Bool) (input : FetchUserMediaInput) (items : List MediaItem)
    (hg : ∀ ps cur page, client.mediaPage ps cur = .ok page →
      (page.tweets.length : Int) ≤ ps)
    (hv : ∀ ps mid page, client.v11Page ps mid = .ok page →
      (page.length : Int) ≤ ps)
    (hmt : (0 : Int) ≤ input.maxTweets.getD 200)
    (hok : fetchUserMedia client init input = .ok items) :
    ((items.map dedupeKeyOf).Nodup) ∧
    (∀ i ∈ items, i.kind ∈ input.mediaKinds) ∧
    (((items.map MediaItem.tweetId).toFinset.card : Int) ≤
      input.maxTweets.getD 200) := by
  unfold fetchUserMedia at hok
  cases init with
  | false => simp at hok
  | true =>
    rw [if_neg (by simp)] at hok
    dsimp only at hok
    rcases h1 : fetchViaGraphql client (normalizeUsername input.username)
        (input.maxTweets.getD 200) input.mediaKinds with e1 | gitems
    · rw [h1] at hok
      dsimp only at hok
      rcases h2 : fetchViaV11 client (normalizeUsername input.username)
          (input.maxTweets.getD 200) input.mediaKinds with e2 | vitems
      · rw [h2] at hok
        simp at hok
      · rw [h2] at hok
        cases hok
        unfold fetchViaV11 at h2
        rcases hgo : fetchViaV11Go client
            (strLower (normalizeUsername input.username)) input.mediaKinds 30
            (input.maxTweets.getD 200) none with e | collected
        · rw [hgo] at h2; cases h2
        · rw [hgo] at h2
          cases h2
          obtain ⟨hcard, hkinds⟩ := fetchViaV11Go_facts client
            (strLower (normalizeUsername input.username)) input.mediaKinds hv
            30 (input.maxTweets.getD 200) none collected hgo
          refine ⟨dedupeMedia_nodup collected, ?_, ?_⟩
          · intro i hi
            exact hkinds i (dedupeMedia_subset collected i hi)
          · have hd : (((dedupeMedia collected).map
                MediaItem.tweetId).toFinset.card : Int) ≤
                ((collected.map MediaItem.tweetId).toFinset.card : Int) := by
              exact_mod_cast dedupe_card_le collected
            have hm : max (input.maxTweets.getD 200) 0 = input.maxTweets.getD 200 :=
              max_eq_left hmt
            rw [hm] at hcard
            exact le_trans hd hcard
    · rw [h1] at hok
      cases hok
      unfold fetchViaGraphql at h1
      rcases hres : client.resolveUserId with e | userId
      · rw [hres] at h1; cases h1
      · rw [hres] at h1
        dsimp only at h1
        rcases hgo : fetchViaGraphqlGo client userId
            (normalizeUsername input.username) input.mediaKinds 30
            (input.maxTweets.getD 200) none with e | collected
        · rw [hgo] at h1; cases h1
        · rw [hgo] at h1
          cases h1
          obtain ⟨hcard, hkinds⟩ := fetchViaGraphqlGo_facts client userId
            (normalizeUsername input.username) input.mediaKinds hg
            30 (input.maxTweets.getD 200) none collected hgo
          refine ⟨dedupeMedia_nodup collected, ?_, ?_⟩
          · intro i hi
            exact hkinds i (dedupeMedia_subset collected i hi)
          · have hd : (((dedupeMedia collected).map
                MediaItem.tweetId).toFinset.card : Int) ≤
                ((collected.map MediaItem.tweetId).toFinset.card : Int) := by
              exact_mod_cast dedupe_card_le collected
            have hm : max (input.maxTweets.getD 200) 0 = input.maxTweets.getD 200 :=
              max_eq_left hmt
            rw [hm] at hcard
            exact le_trans hd hcard

/-- C2 amended, witness: a page-size-honest behaviour with one
single-photo tweet and `maxTweets = 5` yields one de-duplicated image item
drawn from one tweet. -/
theorem c2_amended_fetch_user_media_witness :
    (([c2witnessItem].map dedupeKeyOf).Nodup) ∧
    (∀ i ∈ [c2witnessItem], i.kind ∈ [MediaKind.image]) ∧
    ((([c2witnessItem].map MediaItem.tweetId).toFinset.card : Int) ≤ 5) :=
  c2_amended_fetch_user_media c2wclient true
    { username := "bob", maxTweets := some 5, mediaKinds := [.image] }
    [c2witnessItem]
    (by
      intro ps cur page h
      unfold c2wclient at h
      dsimp only at h
      by_cases hp : (1 : Int) ≤ ps
      · rw [if_pos hp] at h
        cases h
        simpa using hp
      · rw [if_neg hp] at h
        cases h)
    (fun ps mid page h => Except.noConfusion h)
    (by decide)
    rfl

/-! ### C4: per-handle event order -/

theorem runUserAttempts_facts (o : JobOracles) (outputDir : String)
    (retryCount : Option Nat) (userRetryCount : Nat) (username : String)
    (now : String) :
    ∀ (fuel attempt : Nat) (res : JobResult) (keys : List String),
      attempt + fuel = userRetryCount + 2 → attempt ≤ userRetryCount + 1 →
      (∀ e ∈ (runUserAttempts o outputDir retryCount userRetryCount username
          now fuel attempt res keys).1, e.username = some username) ∧
      (((runUserAttempts o outputDir retryCount userRetryCount username now
          fuel attempt res keys).1.map JobEvent.jtype).dropWhile
            (fun t => t = .warning) =
          [.media_found, .download_progress, .user_finished] ∨
       ((runUserAttempts o outputDir retryCount userRetryCount username now
          fuel attempt res keys).1.map JobEvent.jtype).dropWhile
            (fun t => t = .warning) = [.error]) := by
  intro fuel
  induction fuel with
  | zero => intro attempt res keys h1 h2; omega
  | succ fuel ih =>
    intro attempt res keys h1 h2
    rw [runUserAttempts]
    rcases hf : o.fetchResult username attempt with msg | mediaItems
    · dsimp only
      by_cases hat : attempt ≤ userRetryCount
      · rw [if_pos hat]
        rcases hrec : runUserAttempts o outputDir retryCount userRetryCount
            username now fuel (attempt + 1)
            { res with failureDetails := res.failureDetails ++
                [{ scope := .user, username := username, message := msg,
                   code := none, media := none, attempts := some attempt,
                   timestamp := now }] } keys with ⟨evs, res2, keys2⟩
        obtain ⟨ihu, iht⟩ := ih (attempt + 1)
          { res with failureDetails := res.failureDetails ++
              [{ scope := .user, username := username, message := msg,
                 code := none, media := none, attempts := some attempt,
                 timestamp := now }] } keys (by omega) (by omega)
        rw [hrec] at ihu iht
        constructor
        · intro e he
          rcases List.mem_cons.mp he with rfl | hmem
          · rfl
          · exact ihu e hmem
        · rw [List.map_cons, List.dropWhile_cons]
          simpa using iht
      · rw [if_neg hat]
        refine ⟨?_, ?_⟩
        · intro e he
          rcases List.mem_cons.mp he with rfl | hmem
          · rfl
          · cases hmem
        · right
          rfl
    · dsimp only
      refine ⟨?_, Or.inl rfl⟩
      intro e he
      rcases List.mem_cons.mp he with rfl | he
      · rfl
      rcases List.mem_cons.mp he with rfl | he
      · rfl
      rcases List.mem_cons.mp he with rfl | he
      · rfl
      cases he

theorem runOneUser_usernames (o : JobOracles) (outputDir : String)
    (retryCount : Option Nat) (userRetryCount : Nat) (now : String)
    (u : String) (res : JobResult) (keys : List String) :
    ∀ e ∈ (runOneUser o outputDir retryCount userRetryCount now u res
        keys).1,
      e.username = none ∨ e.username = some (stripAtTrim u) := by
  intro e he
  unfold runOneUser at he
  by_cases hname : stripAtTrim u = ""
  · rw [if_pos hname] at he
    rcases List.mem_cons.mp he with rfl | he
    · exact Or.inl rfl
    · cases he
  · rw [if_neg hname] at he
    rcases hA : runUserAttempts o outputDir retryCount userRetryCount
        (stripAtTrim u) now (userRetryCount + 1) 1 res keys
      with ⟨evs, res2, keys2⟩
    rw [hA] at he
    dsimp only at he
    rcases List.mem_cons.mp he with rfl | he
    · exact Or.inr rfl
    · obtain ⟨hu, -⟩ := runUserAttempts_facts o outputDir retryCount
        userRetryCount (stripAtTrim u) now (userRetryCount + 1) 1 res keys
        (by omega) (by omega)
      rw [hA] at hu
      exact Or.inr (hu e he)

theorem runOneUser_proj_self (o : JobOracles) (outputDir : String)
    (retryCount : Option Nat) (userRetryCount : Nat) (now : String)
    (u : String) (res : JobResult) (keys : List String)
    (hne : stripAtTrim u ≠ "") :
    matchesAmendedUserRegex (projectOnHandle
      (runOneUser o outputDir retryCount userRetryCount now u res keys).1
      (stripAtTrim u)) = true := by
  unfold runOneUser
  rw [if_neg hne]
  rcases hA : runUserAttempts o outputDir retryCount userRetryCount
      (stripAtTrim u) now (userRetryCount + 1) 1 res keys
    with ⟨evs, res2, keys2⟩
  obtain ⟨hu, ht⟩ := runUserAttempts_facts o outputDir retryCount
    userRetryCount (stripAtTrim u) now (userRetryCount + 1) 1 res keys
    (by omega) (by omega)
  rw [hA] at hu ht
  dsimp only at hu ht
  unfold projectOnHandle
  have hkeep : (decide ((createEvent .user_started
      ("Processing @" ++ stripAtTrim u) now (some (stripAtTrim u))).username =
        some (stripAtTrim u))) = true := by
    simp [createEvent]
  rw [List.filter_cons, if_pos hkeep]
  have hfilter : evs.filter (fun e => e.username = some (stripAtTrim u)) = evs := by
    apply List.filter_eq_self.mpr
    intro e he
    simp [hu e he]
  rw [hfilter, List.map_cons]
  unfold matchesAmendedUserRegex
  rcases ht with h | h
  · simp [createEvent, h]
  · simp [createEvent, h]

theorem runOneUser_proj_other (o : JobOracles) (outputDir : String)
    (retryCount : Option Nat) (userRetryCount : Nat) (now : String)
    (u : String) (res : JobResult) (keys : List String) (h : String)
    (hne : stripAtTrim u ≠ h) :
    projectOnHandle
      (runOneUser o outputDir retryCount userRetryCount now u res keys).1
      h = [] := by
  unfold projectOnHandle
  have hnil : List.filter (fun e => decide (e.username = some h))
      (runOneUser o outputDir retryCount userRetryCount now u res keys).1 = [] := by
    rw [List.filter_eq_nil_iff]
    intro e he
    rcases runOneUser_usernames o outputDir retryCount userRetryCount now u
        res keys e he with hn | hn
    · simp [hn]
    · simp [hn]
      intro hcontra
      exact hne hcontra
  rw [hnil]
  rfl

theorem projectOnHandle_append (a b : List JobEvent) (h : String) :
    projectOnHandle (a ++ b) h = projectOnHandle a h ++ projectOnHandle b h := by
  unfold projectOnHandle
  rw [List.filter_append, List.map_append]

theorem runUsersFold_proj_zero (o : JobOracles) (outputDir : String)
    (retryCount : Option Nat) (userRetryCount : Nat) (now : String)
    (h : String) :
    ∀ (users : List String) (res : JobResult) (keys : List String),
      (users.map stripAtTrim).count h = 0 →
      projectOnHandle (runUsersFold o outputDir retryCount userRetryCount now
        users res keys).1 h = [] := by
  intro users
  induction users with
  | nil => intro res keys _; rfl
  | cons u rest ih =>
    intro res keys hcount
    rw [List.map_cons, List.count_cons] at hcount
    have hu : stripAtTrim u ≠ h := by
      intro he
      simp [he] at hcount
    have hrest : (rest.map stripAtTrim).count h = 0 := by
      by_cases he : stripAtTrim u = h
      · exact absurd he hu
      · simpa [he] using hcount
    rw [runUsersFold]
    rcases h1 : runOneUser o outputDir retryCount userRetryCount now u res
        keys with ⟨evs, res1, keys1⟩
    dsimp only
    rcases h2 : runUsersFold o outputDir retryCount userRetryCount now rest
        res1 keys1 with ⟨evs2, res2, keys2⟩
    dsimp only
    rw [projectOnHandle_append]
    have hone := runOneUser_proj_other o outputDir retryCount userRetryCount
      now u res keys h hu
    rw [h1] at hone
    dsimp only at hone
    have hmore := ih res1 keys1 hrest
    rw [h2] at hmore
    dsimp only at hmore
    rw [hone, hmore]
    rfl

theorem runUsersFold_proj_one (o : JobOracles) (outputDir : String)
    (retryCount : Option Nat) (userRetryCount : Nat) (now : String)
    (h : String) (hne : h ≠ "") :
    ∀ (users : List String) (res : JobResult) (keys : List String),
      (users.map stripAtTrim).count h = 1 →
      matchesAmendedUserRegex (projectOnHandle
        (runUsersFold o outputDir retryCount userRetryCount now users res
          keys).1 h) = true := by
  intro users
  induction users with
  | nil => intro res keys hcount; simp at hcount
  | cons u rest ih =>
    intro res keys hcount
    rw [List.map_cons, List.count_cons] at hcount
    rw [runUsersFold]
    rcases h1 : runOneUser o outputDir retryCount userRetryCount now u res
        keys with ⟨evs, res1, keys1⟩
    dsimp only
    rcases h2 : runUsersFold o outputDir retryCount userRetryCount now rest
        res1 keys1 with ⟨evs2, res2, keys2⟩
    dsimp only
    rw [projectOnHandle_append]
    by_cases he : stripAtTrim u = h
    · have hrest : (rest.map stripAtTrim).count h = 0 := by
        simpa [he] using hcount
      have hmore := runUsersFold_proj_zero o outputDir retryCount
        userRetryCount now h rest res1 keys1 hrest
      rw [h2] at hmore
      dsimp only at hmore
      rw [hmore, List.append_nil]
      have hone := runOneUser_proj_self o outputDir retryCount userRetryCount
        now u res keys (by rw [he]; exact hne)
      rw [h1, he] at hone
      dsimp only at hone
      exact hone
    · have hrest : (rest.map stripAtTrim).count h = 1 := by
        simpa [he] using hcount
      have hone := runOneUser_proj_other o outputDir retryCount userRetryCount
        now u res keys h he
      rw [h1] at hone
      dsimp only at hone
      rw [hone, List.nil_append]
      have hmore := ih res1 keys1 hrest
      rw [h2] at hmore
      dsimp only at hmore
      exact hmore

/-- C4 counterexample: with one retry configured and a scraper that throws
"timeout" on the first attempt for alice and succeeds on the second, the
projection of the job trace onto alice is
`user_started warning media_found download_progress user_finished`, which
the claimed regex rejects (its success branch allows a warning or the
media pair, not both). -/
theorem c4_counterexample_retry_success_rejected :
    projectOnHandle (runBatchJobCore c4oracles c4input [] "t0").1 "alice" =
      [.user_started, .warning, .media_found, .download_progress,
       .user_finished] ∧
    matchesClaimUserRegex
      (projectOnHandle (runBatchJobCore c4oracles c4input [] "t0").1 "alice") =
      false := by
  exact ⟨rfl, rfl⟩

/-- C4 (amended): for every input handle list, scraper behaviour and
downloader behaviour, the job's event sequence projected onto any single
nonempty normalized handle occurring exactly once in the list matches
`user_started warning* (media_found download_progress user_finished |
error)`. -/
theorem c4_amended_event_order (o : JobOracles) (input : BatchJobInput)
    (initialKeys : List String) (now : String) (h : String) (hne : h ≠ "")
    (hcount : (input.users.map stripAtTrim).count h = 1) :
    matchesAmendedUserRegex (projectOnHandle
      (runBatchJobCore o input initialKeys now).1 h) = true := by
  unfold runBatchJobCore
  rcases hfold : runUsersFold o input.outputDir input.retryCount
      ((input.userRetryCount).getD 1) now input.users
      { totalUsers := input.users.length, succeededUsers := 0,
        failedUsers := 0, totalMedia := 0, downloaded := 0, failed := 0,
        skipped := 0, failureDetails := [] } initialKeys
    with ⟨evs, res, keys⟩
  dsimp only
  rw [hfold]
  dsimp only
  have hstart : projectOnHandle [createEvent .job_started
      ("Batch started for " ++ toString input.users.length ++ " user(s).")
      now] h = [] := rfl
  have hfin : projectOnHandle [createEvent .job_finished "Batch finished."
      now none (some ⟨res.totalMedia, res.downloaded, res.failed,
        res.skipped⟩)] h = [] := rfl
  have hsplit : (createEvent .job_started
      ("Batch started for " ++ toString input.users.length ++ " user(s).")
      now :: evs ++ [createEvent .job_finished "Batch finished." now none
        (some ⟨res.totalMedia, res.downloaded, res.failed, res.skipped⟩)]) =
      [createEvent .job_started
        ("Batch started for " ++ toString input.users.length ++ " user(s).")
        now] ++ evs ++ [createEvent .job_finished "Batch finished." now none
        (some ⟨res.totalMedia, res.downloaded, res.failed, res.skipped⟩)] := by
    simp
  rw [hsplit, projectOnHandle_append, projectOnHandle_append, hstart, hfin,
    List.nil_append, List.append_nil]
  have := runUsersFold_proj_one o input.outputDir input.retryCount
    ((input.userRetryCount).getD 1) now h hne input.users
    { totalUsers := input.users.length, succeededUsers := 0, failedUsers := 0,
      totalMedia := 0, downloaded := 0, failed := 0, skipped := 0,
      failureDetails := [] } initialKeys hcount
  rw [hfold] at this
  dsimp only at this
  exact this

/-- C4 amended, witness: a single-entry handle list with a clean first
attempt yields a projection matching the amended regex. -/
theorem c4_amended_event_order_witness :
    matchesAmendedUserRegex (projectOnHandle
      (runBatchJobCore c4oracles c4winput [] "t0").1 "bob") = true :=
  c4_amended_event_order c4oracles c4winput [] "t0" "bob" (by decide)
    (by decide)

/-! ### C9: missing auth_token / ct0 -/

theorem tokensByDomain_no_match (name : String) :
    ∀ (records : List CookieRecord) (m : List (String × List String)),
      (∀ r ∈ records, r.name ≠ name) →
      records.foldl
        (fun m r => if r.name = name then
          multiMapAdd m (cookieDomainKey r) r.value else m) m = m := by
  intro records
  induction records with
  | nil => intro m _; rfl
  | cons r rest ih =>
    intro m hno
    rw [List.foldl_cons, if_neg (hno r (List.mem_cons_self r rest))]
    exact ih m fun r2 h2 => hno r2 (List.mem_cons_of_mem r h2)

theorem objGet_objSet_ne (k n v : String) (hnk : n ≠ k) :
    ∀ m : List (String × String), objGet (objSet m n v) k = objGet m k := by
  intro m
  induction m with
  | nil =>
    simp [objSet, objGet, List.find?, hnk]
  | cons p rest ih =>
    rw [objSet]
    by_cases hp : p.1 = n
    · rw [if_pos hp]
      unfold objGet
      rw [List.find?_cons, List.find?_cons]
      have h1 : (decide (n = k)) = false := by simp [hnk]
      have h2 : (decide (p.1 = k)) = false := by simp [hp, hnk]
      rw [h1, h2]
    · rw [if_neg hp]
      unfold objGet
      rw [List.find?_cons, List.find?_cons]
      cases hd : decide (p.1 = k) with
      | true => rfl
      | false => exact ih

theorem parseSessionCookies_get_none (k : String) :
    ∀ (cookies : List String) (m : List (String × String)),
      (∀ c ∈ cookies, ∀ p, parseCookieFirstPair c = some p → p.1 ≠ k) →
      objGet m k = none →
      objGet (cookies.foldl
        (fun m cookie =>
          match parseCookieFirstPair cookie with
          | some (n, v) => objSet m n v
          | none => m) m) k = none := by
  intro cookies
  induction cookies with
  | nil => intro m _ hm; exact hm
  | cons c rest ih =>
    intro m hno hm
    rw [List.foldl_cons]
    rcases hp : parseCookieFirstPair c with _ | p
    · exact ih m (fun c2 h2 => hno c2 (List.mem_cons_of_mem c h2)) hm
    · obtain ⟨n, v⟩ := p
      dsimp only
      refine ih (objSet m n v)
        (fun c2 h2 => hno c2 (List.mem_cons_of_mem c h2)) ?_
      rw [objGet_objSet_ne k n v
        (hno c (List.mem_cons_self c rest) (n, v) hp) m]
      exact hm

/-- C9: for every session whose cookies carry neither an `auth_token` nor
a `ct0` name=value pair, `GraphqlMediaScraper.initialize`
(`buildGraphqlAuthBundle`) throws; in particular the anonymous session
synthesized when the stored session is absent or empty makes the whole
graphql-scraper job fail before any event is emitted. -/
theorem c9_missing_auth_cookies_fail_init :
    (∀ session : SessionData,
      (∀ c ∈ session.cookies, sessionMentionsAuthCookie c = false) →
      buildGraphqlAuthBundle session =
        .error "graphql requires login cookies: auth_token and ct0.") ∧
    (∀ (stored : Option SessionData) (o : JobOracles) (input : BatchJobInput)
        (initialKeys : List String) (now : String),
      (stored = none ∨ ∃ s, stored = some s ∧ s.cookies = []) →
      runBatchJobWithGraphqlInit stored o input initialKeys now =
        .error "graphql requires login cookies: auth_token and ct0.") := by
  have part1 : ∀ session : SessionData,
      (∀ c ∈ session.cookies, sessionMentionsAuthCookie c = false) →
      buildGraphqlAuthBundle session =
        .error "graphql requires login cookies: auth_token and ct0." := by
    intro session hses
    have hrec : ∀ r ∈ session.cookies.filterMap parseCookieRecord,
        r.name ≠ "auth_token" ∧ r.name ≠ "ct0" := by
      intro r hr
      obtain ⟨c, hc, hparse⟩ := List.mem_filterMap.mp hr
      have hm := hses c hc
      unfold sessionMentionsAuthCookie at hm
      rw [hparse] at hm
      simp only [Bool.or_eq_false_iff] at hm
      constructor
      · intro he
        have := hm.1
        simp [he] at this
      · intro he
        have := hm.1
        simp [he] at this
    have hfirst : ∀ k, k = "auth_token" ∨ k = "ct0" →
        ∀ c ∈ session.cookies, ∀ p, parseCookieFirstPair c = some p →
          p.1 ≠ k := by
      intro k hk c hc p hp he
      have hm := hses c hc
      unfold sessionMentionsAuthCookie at hm
      rw [hp] at hm
      simp only [Bool.or_eq_false_iff] at hm
      have := hm.2
      rcases hk with rfl | rfl
      · simp [he] at this
      · simp [he] at this
    have hA : tokensByDomain "auth_token"
        (session.cookies.filterMap parseCookieRecord) = [] :=
      tokensByDomain_no_match "auth_token" _ []
        (fun r hr => (hrec r hr).1)
    have hC : tokensByDomain "ct0"
        (session.cookies.filterMap parseCookieRecord) = [] :=
      tokensByDomain_no_match "ct0" _ [] (fun r hr => (hrec r hr).2)
    have hga : objGet (parseSessionCookies session.cookies) "auth_token" =
        none :=
      parseSessionCookies_get_none "auth_token" session.cookies []
        (hfirst "auth_token" (Or.inl rfl)) rfl
    have hgc : objGet (parseSessionCookies session.cookies) "ct0" = none :=
      parseSessionCookies_get_none "ct0" session.cookies []
        (hfirst "ct0" (Or.inr rfl)) rfl
    unfold buildGraphqlAuthBundle
    dsimp only
    rw [hA, hC, hga, hgc]
    simp [jsSetDedup, jsSetDedup.go, multiMapGet, List.find?]
  refine ⟨part1, ?_⟩
  intro stored o input initialKeys now hstored
  unfold runBatchJobWithGraphqlInit
  rcases hstored with rfl | ⟨s, rfl, hcook⟩
  · dsimp only
    rw [part1 (buildAnonymousSession now) (by intro c hc; cases hc)]
  · dsimp only
    rw [hcook]
    dsimp only [List.length_nil]
    rw [if_neg (by omega)]
    rw [part1 (buildAnonymousSession now) (by intro c hc; cases hc)]

/-- C9 witness: a session holding only an unrelated cookie fails the
bundle build, and a job started with no stored session fails with the
same error and yields no events. -/
theorem c9_missing_auth_cookies_fail_init_witness :
    buildGraphqlAuthBundle
        { cookies := ["foo=bar; Domain=.x.com"], updatedAt := "u",
          valid := true } =
      .error "graphql requires login cookies: auth_token and ct0." ∧
    runBatchJobWithGraphqlInit none c9oracles c9input [] "t0" =
      .error "graphql requires login cookies: auth_token and ct0." :=
  ⟨c9_missing_auth_cookies_fail_init.1
      { cookies := ["foo=bar; Domain=.x.com"], updatedAt := "u",
        valid := true } (by decide),
   c9_missing_auth_cookies_fail_init.2 none c9oracles c9input [] "t0"
      (Or.inl rfl)⟩

/-! ### C8: dedup algebra for `jsSetDedup` -/

theorem jsSetDedup_go_mem : ∀ (l seen : List String) (b : String),
    b ∈ l → b ∉ seen → b ∈ jsSetDedup.go seen l := by
  intro l
  induction l with
  | nil => intro seen b hb; cases hb
  | cons x xs ih =>
    intro seen b hb hbs
    rw [jsSetDedup.go]
    by_cases hx : x ∈ seen
    · rw [if_pos hx]
      rcases List.mem_cons.mp hb with h | h
      · exact absurd (h ▸ hx) hbs
      · exact ih seen b h hbs
    · rw [if_neg hx]
      rcases List.mem_cons.mp hb with h | h
      · exact h ▸ List.mem_cons_self _ _
      · by_cases hbx : b = x
        · exact hbx ▸ List.mem_cons_self _ _
        · refine List.mem_cons_of_mem _ (ih (x :: seen) b h ?_)
          intro hmem
          rcases List.mem_cons.mp hmem with h1 | h1
          · exact hbx h1
          · exact hbs h1

theorem jsSetDedup_mem (l : List String) (b : String) :
    b ∈ jsSetDedup l ↔ b ∈ l :=
  ⟨jsSetDedup_subset l b, fun h =>
    jsSetDedup_go_mem l [] b h (by intro hc; cases hc)⟩

theorem jsSetDedup_go_nil (l : List String) :
    jsSetDedup.go [] l = jsSetDedup l := rfl

theorem jsSetDedup_go_eq_filter : ∀ (l seen : List String),
    jsSetDedup.go seen l =
      (jsSetDedup.go [] l).filter (fun a => !(decide (a ∈ seen))) := by
  intro l
  induction l with
  | nil => intro seen; simp [jsSetDedup.go]
  | cons x xs ih =>
    intro seen
    rw [jsSetDedup.go, jsSetDedup.go,
      if_neg (List.not_mem_nil x), List.filter_cons]
    by_cases hx : x ∈ seen
    · rw [if_pos hx, if_neg (by simp [hx])]
      rw [ih seen, ih [x], List.filter_filter]
      apply List.filter_congr
      intro a _
      by_cases hax : a = x
      · subst hax; simp [hx]
      · simp [hax]
    · rw [if_neg hx, if_pos (by simp [hx])]
      rw [ih (x :: seen), ih [x], List.filter_filter]
      refine congrArg _ (List.filter_congr ?_)
      intro a _
      by_cases hax : a = x
      · subst hax; simp
      · simp [hax, List.mem_cons]

theorem jsSetDedup_go_append : ∀ (A B seen : List String),
    jsSetDedup.go seen (A ++ B) =
      jsSetDedup.go seen A ++
        (jsSetDedup B).filter
          (fun b => !(decide (b ∈ seen) || decide (b ∈ A))) := by
  intro A
  induction A with
  | nil =>
    intro B seen
    rw [List.nil_append, jsSetDedup_go_eq_filter B seen]
    show _ = jsSetDedup.go seen [] ++ _
    rw [jsSetDedup.go, List.nil_append]
    show (jsSetDedup B).filter _ = (jsSetDedup B).filter _
    apply List.filter_congr
    intro b _
    simp
  | cons a A' ih =>
    intro B seen
    rw [List.cons_append, jsSetDedup.go]
    show _ = jsSetDedup.go seen (a :: A') ++ _
    rw [jsSetDedup.go]
    by_cases ha : a ∈ seen
    · rw [if_pos ha, if_pos ha, ih B seen]
      refine congrArg _ (List.filter_congr ?_)
      intro b _
      by_cases hba : b = a
      · subst hba; simp [ha]
      · simp [hba, List.mem_cons]
    · rw [if_neg ha, if_neg ha, ih B (a :: seen), List.cons_append]
      refine congrArg _ (congrArg _ (List.filter_congr ?_))
      intro b _
      by_cases hba : b = a
      · subst hba; simp
      · simp [hba, List.mem_cons]

theorem jsSetDedup_append (A B : List String) :
    jsSetDedup (A ++ B) =
      jsSetDedup A ++ (jsSetDedup B).filter (fun b => !(decide (b ∈ A))) := by
  show jsSetDedup.go [] (A ++ B) = jsSetDedup.go [] A ++ _
  rw [jsSetDedup_go_append A B []]
  refine congrArg _ (List.filter_congr ?_)
  intro b _
  simp

theorem jsSetDedup_append_congr {A A' B B' : List String}
    (hA : jsSetDedup A' = jsSetDedup A) (hB : jsSetDedup B' = jsSetDedup B) :
    jsSetDedup (A' ++ B') = jsSetDedup (A ++ B) := by
  rw [jsSetDedup_append, jsSetDedup_append, hA, hB]
  refine congrArg _ (List.filter_congr ?_)
  intro b _
  have h1 := jsSetDedup_mem A' b
  have h2 := jsSetDedup_mem A b
  rw [hA] at h1
  simp [h1.symm.trans h2]

theorem jsSetDedup_flatMap_congr (f g : String → List String) :
    ∀ (M : List String), (∀ c ∈ M, jsSetDedup (g c) = jsSetDedup (f c)) →
      jsSetDedup (M.flatMap g) = jsSetDedup (M.flatMap f) := by
  intro M
  induction M with
  | nil => intro _; rfl
  | cons c M' ih =>
    intro h
    rw [List.flatMap_cons, List.flatMap_cons]
    exact jsSetDedup_append_congr (h c (List.mem_cons_self c M'))
      (ih fun d hd => h d (List.mem_cons_of_mem c hd))

theorem jsSetDedup_filter_comm (p : String → Bool) :
    ∀ (X : List String), (jsSetDedup X).filter p = jsSetDedup (X.filter p) := by
  intro X
  induction X with
  | nil => rfl
  | cons x xs ih =>
    have hd : jsSetDedup (x :: xs) =
        x :: (jsSetDedup xs).filter (fun b => !(decide (b ∈ [x]))) := by
      show jsSetDedup.go [] (x :: xs) = _
      rw [jsSetDedup.go, if_neg (List.not_mem_nil x),
        jsSetDedup_go_eq_filter xs [x], jsSetDedup_go_nil]
    by_cases hp : p x
    · have hf : List.filter p (x :: xs) = x :: xs.filter p := by
        rw [List.filter_cons, if_pos hp]
      have hd2 : jsSetDedup (x :: xs.filter p) =
          x :: (jsSetDedup (xs.filter p)).filter
            (fun b => !(decide (b ∈ [x]))) := by
        show jsSetDedup.go [] (x :: xs.filter p) = _
        rw [jsSetDedup.go, if_neg (List.not_mem_nil x),
          jsSetDedup_go_eq_filter (xs.filter p) [x], jsSetDedup_go_nil]
      rw [hd, hf, hd2, List.filter_cons, if_pos hp, ← ih, List.filter_filter,
        List.filter_filter]
      refine congrArg _ (List.filter_congr ?_)
      intro a _
      exact Bool.and_comm _ _
    · have hf : List.filter p (x :: xs) = xs.filter p := by
        rw [List.filter_cons, if_neg hp]
      rw [hd, hf, List.filter_cons, if_neg hp, ← ih, List.filter_filter]
      apply List.filter_congr
      intro a _
      by_cases hax : a = x
      · subst hax
        simp [Bool.eq_false_iff.mpr hp]
      · simp [hax]

theorem dedup_flatMap_filter (f : String → List String) (y : String) :
    ∀ (l : List String) (p : String → Bool), (∀ b ∈ f y, p b = false) →
      (jsSetDedup ((l.filter (fun x => !(decide (x ∈ [y])))).flatMap f)).filter
          p =
        (jsSetDedup (l.flatMap f)).filter p := by
  intro l
  induction l with
  | nil => intro p _; rfl
  | cons x l' ih =>
    intro p hp
    by_cases hxy : x = y
    · subst hxy
      rw [List.filter_cons, if_neg (by simp), List.flatMap_cons,
        jsSetDedup_append, List.filter_append, ih p hp, List.filter_filter]
      have h1 : (jsSetDedup (f x)).filter p = [] := by
        rw [List.filter_eq_nil_iff]
        intro b hb
        simp [hp b (jsSetDedup_subset (f x) b hb)]
      rw [h1, List.nil_append]
      apply List.filter_congr
      intro b _
      by_cases hpb : p b
      · have : ¬ b ∈ f x := fun hmem => by simp [hp b hmem] at hpb
        simp [hpb, this]
      · simp [Bool.eq_false_iff.mpr hpb]
    · rw [List.filter_cons, if_pos (by simp [hxy]), List.flatMap_cons,
        List.flatMap_cons, jsSetDedup_append, jsSetDedup_append,
        List.filter_append, List.filter_append, List.filter_filter,
        List.filter_filter]
      refine congrArg _ ?_
      have hcomb := ih (fun b => p b && !(decide (b ∈ f x)))
        (fun b hb => by simp [hp b hb])
      exact hcomb

theorem jsSetDedup_flatMap_dedup (f : String → List String) :
    ∀ (Y : List String),
      jsSetDedup ((jsSetDedup Y).flatMap f) = jsSetDedup (Y.flatMap f) := by
  intro Y
  induction Y with
  | nil => rfl
  | cons y ys ih =>
    have hd : jsSetDedup (y :: ys) =
        y :: (jsSetDedup ys).filter (fun b => !(decide (b ∈ [y]))) := by
      show jsSetDedup.go [] (y :: ys) = _
      rw [jsSetDedup.go, if_neg (List.not_mem_nil y),
        jsSetDedup_go_eq_filter ys [y]]
      rfl
    rw [hd, List.flatMap_cons, List.flatMap_cons, jsSetDedup_append,
      jsSetDedup_append]
    refine congrArg _ ?_
    rw [dedup_flatMap_filter f y (jsSetDedup ys)
      (fun b => !(decide (b ∈ f y))) (fun b hb => by simp [hb]), ih]

theorem flatMap_flatMap (f g : String → List String) :
    ∀ (M : List String),
      (M.flatMap g).flatMap f = M.flatMap (fun c => (g c).flatMap f) := by
  intro M
  induction M with
  | nil => rfl
  | cons c M' ih =>
    rw [List.flatMap_cons, List.flatMap_cons, List.flatMap_append, ih]

/-! ### C8: structure of the `Domain` attribute scan -/

theorem tryMatchAt_eq (l : List Char) :
    tryMatchAt l =
      (if startsWithList "domain=".toList
          ((l.dropWhile jsWhitespace).map Char.toLower) then
        (if (((l.dropWhile jsWhitespace).drop 7).takeWhile
            (fun c => c ≠ ';')).isEmpty then none
         else some
          (((l.dropWhile jsWhitespace).drop 7).takeWhile (fun c => c ≠ ';'),
            ((l.dropWhile jsWhitespace).drop 7).dropWhile (fun c => c ≠ ';')))
       else none) := rfl

theorem dropWhile_append_split {α : Type} (q : α → Bool) :
    ∀ (l₁ l₂ : List α),
      (l₁ ++ l₂).dropWhile q =
        if (l₁.dropWhile q).isEmpty then l₂.dropWhile q
        else l₁.dropWhile q ++ l₂ := by
  intro l₁
  induction l₁ with
  | nil => intro l₂; simp
  | cons a t ih =>
    intro l₂
    rw [List.cons_append, List.dropWhile_cons, List.dropWhile_cons]
    by_cases hq : q a
    · rw [if_pos hq, if_pos hq, ih l₂]
    · rw [if_neg hq, if_neg hq]
      simp

theorem dropWhile_append_of_all {α : Type} {q : α → Bool} {l₁ l₂ : List α}
    (h : ∀ c ∈ l₁, q c = true) :
    (l₁ ++ l₂).dropWhile q = l₂.dropWhile q := by
  induction l₁ with
  | nil => simp
  | cons a t ih =>
    rw [List.cons_append, List.dropWhile_cons,
      if_pos (h a (List.mem_cons_self a t))]
    exact ih fun c hc => h c (List.mem_cons_of_mem a hc)

theorem startsWithList_append_indep (pat : List Char) :
    ∀ (a x : List Char), pat.length ≤ a.length →
      startsWithList pat (a ++ x) = startsWithList pat a := by
  induction pat with
  | nil => intro a x _; rfl
  | cons p ps ih =>
    intro a x h
    cases a with
    | nil => simp at h
    | cons b bs =>
      rw [List.cons_append]
      simp only [startsWithList]
      rw [ih bs x (by simpa using h)]

theorem startsWithList_mismatch :
    ∀ (pat a : List Char) (c : Char) (x : List Char),
      a.length < pat.length → (∀ q ∈ pat, q ≠ c) →
      startsWithList pat (a ++ c :: x) = false := by
  intro pat
  induction pat with
  | nil => intro a c x h _; simp at h
  | cons p ps ih =>
    intro a c x h hq
    cases a with
    | nil =>
      simp only [List.nil_append, startsWithList]
      simp [hq p (List.mem_cons_self p ps)]
    | cons b bs =>
      rw [List.cons_append]
      simp only [startsWithList]
      by_cases hpb : p = b
      · rw [ih bs c x (by simpa using h)
          (fun q hqm => hq q (List.mem_cons_of_mem p hqm))]
        simp
      · simp [hpb]

theorem startsWithList_self_append : ∀ (p z : List Char),
    startsWithList p (p ++ z) = true := by
  intro p
  induction p with
  | nil => intro z; rfl
  | cons a as ih =>
    intro z
    rw [List.cons_append]
    simp only [startsWithList]
    simp [ih z]

theorem startsWith_domain_semi (w : List Char) :
    startsWithList "domain=".toList (';' :: w) = false := by
  have h : "domain=".toList = 'd' :: "omain=".toList := rfl
  rw [h]
  simp only [startsWithList]
  simp

theorem tryMatchAt_semi_head (Z : List Char) :
    tryMatchAt (';' :: Z) = none := by
  rw [tryMatchAt_eq, List.dropWhile_cons,
    if_neg (by decide : ¬ jsWhitespace ';' = true), List.map_cons,
    (by decide : Char.toLower ';' = ';'), startsWith_domain_semi]
  simp

theorem tryMatchAt_indep (p X Y : List Char)
    (h : tryMatchAt (p ++ ';' :: X) = none) :
    tryMatchAt (p ++ ';' :: Y) = none := by
  have hdrop : ∀ (Z : List Char),
      (p ++ ';' :: Z).dropWhile jsWhitespace =
        if (p.dropWhile jsWhitespace).isEmpty then ';' :: Z
        else p.dropWhile jsWhitespace ++ ';' :: Z := by
    intro Z
    rw [dropWhile_append_split]
    rw [List.dropWhile_cons, if_neg (by decide : ¬ jsWhitespace ';' = true)]
  rcases hr2 : p.dropWhile jsWhitespace with _ | ⟨hd, tl⟩
  · have hd' := hdrop Y
    rw [hr2] at hd'
    rw [List.isEmpty_nil, if_pos rfl] at hd'
    rw [tryMatchAt_eq, hd', List.map_cons,
      (by decide : Char.toLower ';' = ';'), startsWith_domain_semi]
    simp
  · have hne : ((hd :: tl : List Char).isEmpty = true) = False := by simp
    have hdX := hdrop X
    have hdY := hdrop Y
    rw [hr2] at hdX hdY
    rw [List.isEmpty_cons] at hdX hdY
    rw [if_neg (by simp)] at hdX
    rw [if_neg (by simp)] at hdY
    by_cases hlen : 7 ≤ (hd :: tl : List Char).length
    · have hsw : ∀ (Z : List Char),
          startsWithList "domain=".toList
              (((hd :: tl) ++ ';' :: Z).map Char.toLower) =
            startsWithList "domain=".toList ((hd :: tl).map Char.toLower) := by
        intro Z
        rw [List.map_append]
        exact startsWithList_append_indep _ _ _ (by simpa using hlen)
      by_cases hsw0 : startsWithList "domain=".toList
          ((hd :: tl).map Char.toLower) = true
      · have hdrop7 : ∀ (Z : List Char),
            ((hd :: tl) ++ ';' :: Z).drop 7 = (hd :: tl).drop 7 ++ ';' :: Z :=
          fun Z => List.drop_append_of_le_length hlen
        rcases hr7 : ((hd :: tl : List Char).drop 7) with _ | ⟨e, es⟩
        · rw [tryMatchAt_eq, hdY, hsw Y, if_pos hsw0, hdrop7 Y, hr7,
            List.nil_append]
          simp
        · by_cases he : e = ';'
          · subst he
            rw [tryMatchAt_eq, hdY, hsw Y, if_pos hsw0, hdrop7 Y, hr7,
              List.cons_append]
            simp
          · exfalso
            rw [tryMatchAt_eq, hdX, hsw X, if_pos hsw0, hdrop7 X, hr7,
              List.cons_append] at h
            simp [he] at h
      · rw [tryMatchAt_eq, hdY, hsw Y, if_neg hsw0]
    · have h0 : ("domain=".toList).length = 7 := by decide
      have h1 : (hd.toLower :: tl.map Char.toLower).length <
          ("domain=".toList).length := by
        rw [h0]
        have h2 := Nat.lt_of_not_le hlen
        simp only [List.length_cons] at h2
        simp only [List.length_cons, List.length_map]
        omega
      have hmm : startsWithList "domain=".toList
          (((hd :: tl) ++ ';' :: Y).map Char.toLower) = false := by
        have h2 : ((hd :: tl) ++ ';' :: Y).map Char.toLower =
            (hd.toLower :: tl.map Char.toLower) ++ ';' :: Y.map Char.toLower := by
          simp [List.map_append, (by decide : Char.toLower ';' = ';')]
        rw [h2]
        exact startsWithList_mismatch _ _ ';' _ h1 (by decide)
      rw [tryMatchAt_eq, hdY, hmm]
      simp

theorem findDomainMatch_of_scan :
    ∀ (pre tail v suf : List Char),
      (∀ p₁ p₂, pre = p₁ ++ ';' :: p₂ →
        tryMatchAt (p₂ ++ ';' :: tail) = none) →
      tryMatchAt tail = some (v, suf) →
      findDomainMatch (pre ++ ';' :: tail) = some (pre, v, suf) := by
  intro pre
  induction pre with
  | nil =>
    intro tail v suf _ h2
    rw [List.nil_append, findDomainMatch, if_pos rfl, h2]
  | cons c pre' ih =>
    intro tail v suf h1 h2
    have hih := ih tail v suf
      (fun p₁ p₂ hp => h1 (c :: p₁) p₂ (by rw [hp]; rfl)) h2
    rw [List.cons_append, findDomainMatch]
    by_cases hc : c = ';'
    · subst hc
      rw [if_pos rfl, h1 [] pre' rfl, hih]
    · rw [if_neg hc, hih]

theorem findDomainMatch_inv :
    ∀ (l pre v suf : List Char),
      findDomainMatch l = some (pre, v, suf) →
      ∃ tail, l = pre ++ ';' :: tail ∧ tryMatchAt tail = some (v, suf) ∧
        (∀ p₁ p₂, pre = p₁ ++ ';' :: p₂ →
          tryMatchAt (p₂ ++ ';' :: tail) = none) := by
  intro l
  induction l with
  | nil => intro pre v suf h; rw [findDomainMatch] at h; cases h
  | cons c rest ih =>
    intro pre v suf h
    rw [findDomainMatch] at h
    by_cases hc : c = ';'
    · subst hc
      rw [if_pos rfl] at h
      rcases htry : tryMatchAt rest with _ | ⟨v₀, suf₀⟩
      · rw [htry] at h
        dsimp only at h
        rcases hfd : findDomainMatch rest with _ | ⟨⟨pre', v', suf'⟩⟩
        · rw [hfd] at h; cases h
        · rw [hfd] at h
          dsimp only at h
          cases h
          obtain ⟨tail, hdec, ht, hscan⟩ := ih pre' v suf hfd
          refine ⟨tail, by rw [hdec]; rfl, ht, ?_⟩
          intro p₁ p₂ hp
          cases p₁ with
          | nil =>
            simp only [List.nil_append] at hp
            injection hp with h1 h2
            subst h2
            rw [← hdec]
            exact htry
          | cons a p₁' =>
            rw [List.cons_append] at hp
            injection hp with h1 h2
            exact hscan p₁' p₂ h2
      · rw [htry] at h
        dsimp only at h
        cases h
        refine ⟨rest, rfl, htry, ?_⟩
        intro p₁ p₂ hp
        exact absurd hp (by cases p₁ <;> simp)
    · rw [if_neg hc] at h
      rcases hfd : findDomainMatch rest with _ | ⟨⟨pre', v', suf'⟩⟩
      · rw [hfd] at h; cases h
      · rw [hfd] at h
        dsimp only at h
        cases h
        obtain ⟨tail, hdec, ht, hscan⟩ := ih pre' v suf hfd
        refine ⟨tail, by rw [hdec]; rfl, ht, ?_⟩
        intro p₁ p₂ hp
        cases p₁ with
        | nil =>
          exfalso
          apply hc
          simp only [List.nil_append] at hp
          injection hp with h1 h2
        | cons a p₁' =>
          rw [List.cons_append] at hp
          injection hp with h1 h2
          exact hscan p₁' p₂ h2

theorem tryMatchAt_inv (l v suf : List Char)
    (h : tryMatchAt l = some (v, suf)) :
    v ≠ [] ∧ (∀ ch ∈ v, ch ≠ ';') ∧ (suf = [] ∨ ∃ s, suf = ';' :: s) ∧
      l = l.takeWhile jsWhitespace ++ (l.dropWhile jsWhitespace).take 7 ++
        v ++ suf := by
  rw [tryMatchAt_eq] at h
  by_cases hsw : startsWithList "domain=".toList
      ((l.dropWhile jsWhitespace).map Char.toLower) = true
  swap
  · rw [if_neg hsw] at h; cases h
  rw [if_pos hsw] at h
  by_cases hemp : (((l.dropWhile jsWhitespace).drop 7).takeWhile
      (fun c => c ≠ ';')).isEmpty = true
  · rw [if_pos hemp] at h; cases h
  rw [if_neg hemp] at h
  cases h
  refine ⟨?_, ?_, ?_, ?_⟩
  · intro hnil
    rw [hnil] at hemp
    exact hemp rfl
  · intro ch hch
    have := List.mem_takeWhile_imp hch
    simpa using this
  · rcases hsuf : ((l.dropWhile jsWhitespace).drop 7).dropWhile
        (fun c => c ≠ ';') with _ | ⟨s₀, s⟩
    · exact Or.inl rfl
    · right
      refine ⟨s, ?_⟩
      have hhead := List.head?_dropWhile_not
        (fun c : Char => (c ≠ ';' : Bool)) ((l.dropWhile jsWhitespace).drop 7)
      rw [hsuf] at hhead
      simp only [List.head?_cons, Option.mem_def, Option.some.injEq] at hhead
      have : s₀ = ';' := by simpa using hhead
      rw [this]
  · have e1 : l = l.takeWhile jsWhitespace ++ l.dropWhile jsWhitespace :=
      (List.takeWhile_append_dropWhile jsWhitespace l).symm
    have e2 : l.dropWhile jsWhitespace =
        (l.dropWhile jsWhitespace).take 7 ++ (l.dropWhile jsWhitespace).drop 7 :=
      (List.take_append_drop 7 _).symm
    have e3 : (l.dropWhile jsWhitespace).drop 7 =
        ((l.dropWhile jsWhitespace).drop 7).takeWhile (fun c => c ≠ ';') ++
          ((l.dropWhile jsWhitespace).drop 7).dropWhile (fun c => c ≠ ';') :=
      (List.takeWhile_append_dropWhile _ _).symm
    conv_lhs => rw [e1, e2, e3]
    simp [List.append_assoc]

theorem map_toLower_domainEq (z : List Char) :
    ('D' :: 'o' :: 'm' :: 'a' :: 'i' :: 'n' :: '=' :: z).map Char.toLower =
      'd' :: 'o' :: 'm' :: 'a' :: 'i' :: 'n' :: '=' :: z.map Char.toLower := by
  simp only [List.map_cons]
  rw [(by decide : Char.toLower 'D' = 'd'), (by decide : Char.toLower 'o' = 'o'),
    (by decide : Char.toLower 'm' = 'm'), (by decide : Char.toLower 'a' = 'a'),
    (by decide : Char.toLower 'i' = 'i'), (by decide : Char.toLower 'n' = 'n'),
    (by decide : Char.toLower '=' = '=')]

theorem tryMatchAt_domain (d suf : List Char) (hd : d ≠ [])
    (hdns : ∀ ch ∈ d, ch ≠ ';') (hsuf : suf = [] ∨ ∃ s, suf = ';' :: s) :
    tryMatchAt
        (' ' :: 'D' :: 'o' :: 'm' :: 'a' :: 'i' :: 'n' :: '=' :: (d ++ suf)) =
      some (d, suf) := by
  have hdw : (' ' :: 'D' :: 'o' :: 'm' :: 'a' :: 'i' :: 'n' :: '=' ::
        (d ++ suf)).dropWhile jsWhitespace =
      'D' :: 'o' :: 'm' :: 'a' :: 'i' :: 'n' :: '=' :: (d ++ suf) := by
    rw [List.dropWhile_cons, if_pos (by decide), List.dropWhile_cons,
      if_neg (by decide)]
  have hsw : startsWithList "domain=".toList
      (('D' :: 'o' :: 'm' :: 'a' :: 'i' :: 'n' :: '=' ::
        (d ++ suf)).map Char.toLower) = true := by
    rw [map_toLower_domainEq]
    have hshape : 'd' :: 'o' :: 'm' :: 'a' :: 'i' :: 'n' :: '=' ::
        (d ++ suf).map Char.toLower =
        "domain=".toList ++ (d ++ suf).map Char.toLower := rfl
    rw [hshape]
    exact startsWithList_self_append _ _
  have hall : ∀ c ∈ d, (fun c : Char => (c ≠ ';' : Bool)) c = true := by
    intro c hc
    simp [hdns c hc]
  have htake : (d ++ suf).takeWhile (fun c => c ≠ ';') = d := by
    rw [takeWhile_append_of_all hall]
    rcases hsuf with h | ⟨s, h⟩
    · rw [h]; simp
    · rw [h, List.takeWhile_cons, if_neg (by simp)]
      simp
  have hdrop : (d ++ suf).dropWhile (fun c => c ≠ ';') = suf := by
    rw [dropWhile_append_of_all hall]
    rcases hsuf with h | ⟨s, h⟩
    · rw [h]; rfl
    · rw [h, List.dropWhile_cons, if_neg (by simp)]
  rw [tryMatchAt_eq, hdw, if_pos hsw]
  have hdrop7 : ('D' :: 'o' :: 'm' :: 'a' :: 'i' :: 'n' :: '=' ::
      (d ++ suf)).drop 7 = d ++ suf := rfl
  rw [hdrop7, htake, hdrop]
  rw [if_neg (by intro hie; exact hd (by simpa using hie))]

theorem dropWhile_head_not {α : Type} (q : α → Bool) :
    ∀ (l : List α) (c : α), (l.dropWhile q).head? = some c → q c = false := by
  intro l
  induction l with
  | nil => intro c h; cases h
  | cons a t ih =>
    intro c h
    rw [List.dropWhile_cons] at h
    by_cases hq : q a
    · rw [if_pos hq] at h
      exact ih c h
    · rw [if_neg hq] at h
      rw [List.head?_cons] at h
      cases h
      exact Bool.eq_false_iff.mpr hq

theorem dropWhile_eq_self_of_head {α : Type} (q : α → Bool) (l : List α)
    (h : ∀ c, l.head? = some c → q c = false) : l.dropWhile q = l := by
  cases l with
  | nil => rfl
  | cons a t =>
    rw [List.dropWhile_cons, if_neg (by simp [h a rfl])]

theorem trimCharList_eq_self {l : List Char}
    (h1 : ∀ c, l.head? = some c → jsWhitespace c = false)
    (h2 : ∀ c, l.getLast? = some c → jsWhitespace c = false) :
    trimCharList l = l := by
  unfold trimCharList
  rw [dropWhile_eq_self_of_head _ _ h1]
  rw [dropWhile_eq_self_of_head _ _
    (fun c hc => h2 c (by rwa [List.head?_reverse] at hc))]
  exact List.reverse_reverse l

theorem trimCharList_head (l : List Char) (c : Char)
    (h : (trimCharList l).head? = some c) : jsWhitespace c = false := by
  unfold trimCharList at h
  rw [List.head?_reverse] at h
  set m := l.dropWhile jsWhitespace with hm
  set r := m.reverse.dropWhile jsWhitespace with hr
  have hrne : r ≠ [] := by
    intro hnil
    rw [hnil] at h
    cases h
  have hsplit : m.reverse = m.reverse.takeWhile jsWhitespace ++ r :=
    (List.takeWhile_append_dropWhile jsWhitespace m.reverse).symm
  have hlast : r.getLast? = m.reverse.getLast? := by
    conv_rhs => rw [hsplit]
    exact (List.getLast?_append_of_ne_nil _ hrne).symm
  rw [hlast, List.getLast?_reverse] at h
  exact dropWhile_head_not jsWhitespace l c h

theorem trimCharList_last (l : List Char) (c : Char)
    (h : (trimCharList l).getLast? = some c) : jsWhitespace c = false := by
  unfold trimCharList at h
  rw [List.getLast?_reverse] at h
  exact dropWhile_head_not jsWhitespace _ c h

theorem trimCharList_idem (l : List Char) :
    trimCharList (trimCharList l) = trimCharList l :=
  trimCharList_eq_self (trimCharList_head l) (trimCharList_last l)

theorem jsTrim_idem (s : String) : jsTrim (jsTrim s) = jsTrim s := by
  unfold jsTrim
  rw [mkToList, trimCharList_idem]

theorem trimCharList_subset (l : List Char) :
    ∀ c ∈ trimCharList l, c ∈ l := by
  intro c hc
  unfold trimCharList at hc
  rw [List.mem_reverse] at hc
  have h1 := (List.dropWhile_sublist (l := (l.dropWhile jsWhitespace).reverse)
    (p := jsWhitespace)).subset hc
  rw [List.mem_reverse] at h1
  exact (List.dropWhile_sublist (l := l) (p := jsWhitespace)).subset h1

theorem mkOfToList (s : String) : String.mk s.toList = s := by
  cases s
  rfl

theorem trim_stable_list {s : String} (h : jsTrim s = s) :
    trimCharList s.toList = s.toList :=
  congrArg String.toList h

theorem mk_ne_empty {l : List Char} (h : l ≠ []) : String.mk l ≠ "" := by
  intro he
  apply h
  have h2 := congrArg String.toList he
  simpa using h2

theorem normalizeCookieDomainValue_cases (s : String) :
    normalizeCookieDomainValue s = ".x.com" ∨
    normalizeCookieDomainValue s = ".twitter.com" ∨
    normalizeCookieDomainValue s = jsTrim s := by
  unfold normalizeCookieDomainValue
  dsimp only
  split
  · left; rfl
  · split
    · right; left; rfl
    · right; right; rfl

theorem normalizeCookieDomainValue_trim (s : String) :
    normalizeCookieDomainValue (jsTrim s) = normalizeCookieDomainValue s := by
  unfold normalizeCookieDomainValue
  rw [jsTrim_idem]

theorem normalizeCookieDomainValue_x :
    normalizeCookieDomainValue ".x.com" = ".x.com" := by decide

theorem normalizeCookieDomainValue_tw :
    normalizeCookieDomainValue ".twitter.com" = ".twitter.com" := by decide

theorem normalizeCookieDomainValue_idem (s : String) :
    normalizeCookieDomainValue (normalizeCookieDomainValue s) =
      normalizeCookieDomainValue s := by
  rcases normalizeCookieDomainValue_cases s with h | h | h
  · rw [h, normalizeCookieDomainValue_x]
  · rw [h, normalizeCookieDomainValue_tw]
  · rw [h, normalizeCookieDomainValue_trim]
    exact h

theorem normalizeCookieDomainValue_no_semi (s : String)
    (hs : ∀ ch ∈ s.toList, ch ≠ ';') :
    ∀ ch ∈ (normalizeCookieDomainValue s).toList, ch ≠ ';' := by
  rcases normalizeCookieDomainValue_cases s with h | h | h <;> rw [h]
  · decide
  · decide
  · intro ch hch
    apply hs
    have hch2 : ch ∈ trimCharList s.toList := by
      have : (jsTrim s).toList = trimCharList s.toList := rfl
      rwa [this] at hch
    exact trimCharList_subset _ ch hch2

theorem normalizeCookieDomainValue_ne_empty (s : String)
    (hne : trimCharList s.toList ≠ []) :
    (normalizeCookieDomainValue s).toList ≠ [] := by
  rcases normalizeCookieDomainValue_cases s with h | h | h <;> rw [h]
  · decide
  · decide
  · exact hne

theorem normalizeCookieDomainValue_last (s : String) (c : Char)
    (h : (normalizeCookieDomainValue s).toList.getLast? = some c) :
    jsWhitespace c = false := by
  rcases normalizeCookieDomainValue_cases s with he | he | he <;> rw [he] at h
  · rw [show (".x.com" : String).toList.getLast? = some 'm' from rfl] at h
    cases h
    decide
  · rw [show (".twitter.com" : String).toList.getLast? = some 'm' from rfl] at h
    cases h
    decide
  · exact trimCharList_last _ _ h

theorem hasDomainTest_of : ∀ (p t : List Char),
    startsWithList "domain=".toList
        ((t.dropWhile jsWhitespace).map Char.toLower) = true →
    hasDomainTest (p ++ ';' :: t) = true := by
  intro p
  induction p with
  | nil =>
    intro t h
    rw [List.nil_append, hasDomainTest]
    rw [show "domain=".toList = ['d', 'o', 'm', 'a', 'i', 'n', '='] from rfl] at h
    simp [h]
  | cons a p' ih =>
    intro t h
    rw [List.cons_append, hasDomainTest, ih t h]
    simp

theorem domainTail_dropWhile (d suf : List Char) :
    (' ' :: 'D' :: 'o' :: 'm' :: 'a' :: 'i' :: 'n' :: '=' ::
        (d ++ suf)).dropWhile jsWhitespace =
      'D' :: 'o' :: 'm' :: 'a' :: 'i' :: 'n' :: '=' :: (d ++ suf) := by
  rw [List.dropWhile_cons, if_pos (by decide), List.dropWhile_cons,
    if_neg (by decide)]

theorem domainTail_startsWith (d suf : List Char) :
    startsWithList "domain=".toList
      (((' ' :: 'D' :: 'o' :: 'm' :: 'a' :: 'i' :: 'n' :: '=' ::
          (d ++ suf)).dropWhile jsWhitespace).map Char.toLower) = true := by
  rw [domainTail_dropWhile, map_toLower_domainEq]
  exact startsWithList_self_append "domain=".toList _

theorem domain_shape (pre d suf : List Char) :
    pre ++ "; Domain=".toList ++ d ++ suf =
      pre ++ ';' ::
        (' ' :: 'D' :: 'o' :: 'm' :: 'a' :: 'i' :: 'n' :: '=' :: (d ++ suf)) := by
  rw [show "; Domain=".toList =
      [';', ' ', 'D', 'o', 'm', 'a', 'i', 'n', '='] from rfl]
  simp [List.append_assoc]

theorem replaced_find (pre tail v suf d : List Char)
    (hscan : ∀ p₁ p₂, pre = p₁ ++ ';' :: p₂ →
      tryMatchAt (p₂ ++ ';' :: tail) = none)
    (htry : tryMatchAt tail = some (v, suf))
    (hd : d ≠ []) (hdns : ∀ ch ∈ d, ch ≠ ';') :
    findDomainMatch (pre ++ "; Domain=".toList ++ d ++ suf) =
      some (pre, d, suf) := by
  obtain ⟨_, _, hsuf, _⟩ := tryMatchAt_inv tail v suf htry
  rw [domain_shape]
  exact findDomainMatch_of_scan pre _ d suf
    (fun p₁ p₂ hp => tryMatchAt_indep p₂ tail _ (hscan p₁ p₂ hp))
    (tryMatchAt_domain d suf hd hdns hsuf)

theorem replaced_test (pre d suf : List Char) :
    hasDomainTest (pre ++ "; Domain=".toList ++ d ++ suf) = true := by
  rw [domain_shape]
  exact hasDomainTest_of pre _ (domainTail_startsWith d suf)

theorem replaced_trimmed (c₀ : String) (pre tail v suf d : List Char)
    (htrim : jsTrim c₀ = c₀)
    (hdec : c₀.toList = pre ++ ';' :: tail)
    (htry : tryMatchAt tail = some (v, suf))
    (hd : d ≠ []) (hdlast : ∀ c, d.getLast? = some c → jsWhitespace c = false) :
    jsTrim (String.mk (pre ++ "; Domain=".toList ++ d ++ suf)) =
      String.mk (pre ++ "; Domain=".toList ++ d ++ suf) := by
  obtain ⟨_, _, hsufshape, htaildec⟩ := tryMatchAt_inv tail v suf htry
  have hstable : trimCharList c₀.toList = c₀.toList := trim_stable_list htrim
  have hhead : ∀ c, (pre ++ "; Domain=".toList ++ d ++ suf).head? = some c →
      jsWhitespace c = false := by
    intro c hc
    cases pre with
    | nil =>
      rw [domain_shape, List.nil_append, List.head?_cons] at hc
      cases hc
      decide
    | cons a pre' =>
      rw [domain_shape, List.cons_append, List.head?_cons] at hc
      injection hc with he
      rw [← he]
      have hc0 : c₀.toList.head? = some a := by
        rw [hdec, List.cons_append, List.head?_cons]
      apply trimCharList_head c₀.toList a
      rw [hstable]
      exact hc0
  have hlast : ∀ c, (pre ++ "; Domain=".toList ++ d ++ suf).getLast? = some c →
      jsWhitespace c = false := by
    intro c hc
    rcases hsufshape with hs0 | ⟨s, hs0⟩
    · subst hs0
      rw [List.append_nil, List.getLast?_append_of_ne_nil _ hd] at hc
      exact hdlast c hc
    · have hsufne : suf ≠ [] := by rw [hs0]; intro hcon; cases hcon
      rw [List.getLast?_append_of_ne_nil _ hsufne] at hc
      have hc0 : c₀.toList.getLast? = some c := by
        have hre : c₀.toList =
            (pre ++ ';' :: (tail.takeWhile jsWhitespace ++
              (tail.dropWhile jsWhitespace).take 7 ++ v)) ++ suf := by
          rw [hdec]
          conv_lhs => rw [htaildec]
          simp [List.append_assoc]
        rw [hre, List.getLast?_append_of_ne_nil _ hsufne]
        exact hc
      apply trimCharList_last c₀.toList c
      rw [hstable]
      exact hc0
  unfold jsTrim
  rw [mkToList, trimCharList_eq_self hhead hlast]

theorem dedup_abba (a b : String) :
    jsSetDedup [a, b, b, a] = jsSetDedup [a, b] := by
  by_cases h : b = a <;>
    simp [jsSetDedup, jsSetDedup.go, h, List.mem_cons, List.mem_singleton]

theorem all_ne_semi {L : List Char} (h : L.all (fun c => c ≠ ';') = true) :
    ∀ ch ∈ L, ch ≠ ';' := by
  intro ch hch
  have := List.all_eq_true.mp h ch hch
  simpa using this

theorem cookieBlock (c₀ : String) (htrim : jsTrim c₀ = c₀) (hne : c₀ ≠ "")
    (hg : goodCookie c₀ = true) :
    (∀ e ∈ expandCrossDomainCookies (normalizeCookieDomainAttribute c₀),
      jsTrim e = e ∧ e ≠ "" ∧ normalizeCookieDomainAttribute e = e) ∧
    jsSetDedup
        ((expandCrossDomainCookies
            (normalizeCookieDomainAttribute c₀)).flatMap
          expandCrossDomainCookies) =
      jsSetDedup (expandCrossDomainCookies (normalizeCookieDomainAttribute c₀))
    := by
  rcases hfind : findDomainMatch c₀.toList with _ | ⟨⟨pre, v, suf⟩⟩
  · have hn : normalizeCookieDomainAttribute c₀ = c₀ := by
      unfold normalizeCookieDomainAttribute
      rw [hfind]
    have hexp : expandCrossDomainCookies c₀ = [c₀] := by
      unfold expandCrossDomainCookies
      rw [hfind]
    rw [hn, hexp]
    refine ⟨?_, ?_⟩
    · intro e he
      have he2 : e = c₀ := List.mem_singleton.mp he
      subst he2
      exact ⟨htrim, hne, hn⟩
    · rw [List.flatMap_cons, hexp]
      simp
  · obtain ⟨tail, hdec, htry, hscan⟩ :=
      findDomainMatch_inv c₀.toList pre v suf hfind
    obtain ⟨hv_ne, hv_nosemi, hsufshape, htaildec⟩ :=
      tryMatchAt_inv tail v suf htry
    have htrimv : trimCharList v ≠ [] := by
      unfold goodCookie at hg
      rw [htrim, hfind] at hg
      dsimp only at hg
      intro hnil
      rw [hnil] at hg
      simp at hg
    have hw_nosemi : ∀ ch ∈ (normalizeCookieDomainValue
        (String.mk v)).toList, ch ≠ ';' :=
      normalizeCookieDomainValue_no_semi _ (by rw [mkToList]; exact hv_nosemi)
    have hw_ne : (normalizeCookieDomainValue (String.mk v)).toList ≠ [] :=
      normalizeCookieDomainValue_ne_empty _ (by rw [mkToList]; exact htrimv)
    have hw_last : ∀ c, (normalizeCookieDomainValue
          (String.mk v)).toList.getLast? = some c → jsWhitespace c = false :=
      fun c hc => normalizeCookieDomainValue_last _ c hc
    have hn : normalizeCookieDomainAttribute c₀ =
        String.mk (pre ++ "; Domain=".toList ++
          (normalizeCookieDomainValue (String.mk v)).toList ++ suf) := by
      unfold normalizeCookieDomainAttribute
      rw [hfind]
    have key : ∀ (d : List Char), d ≠ [] → (∀ ch ∈ d, ch ≠ ';') →
        (∀ c, d.getLast? = some c → jsWhitespace c = false) →
        findDomainMatch
            (String.mk (pre ++ "; Domain=".toList ++ d ++ suf)).toList =
          some (pre, d, suf) ∧
        hasDomainTest
            (String.mk (pre ++ "; Domain=".toList ++ d ++ suf)).toList = true ∧
        jsTrim (String.mk (pre ++ "; Domain=".toList ++ d ++ suf)) =
          String.mk (pre ++ "; Domain=".toList ++ d ++ suf) ∧
        String.mk (pre ++ "; Domain=".toList ++ d ++ suf) ≠ "" := by
      intro d hd hdns hdl
      refine ⟨?_, ?_, ?_, ?_⟩
      · rw [mkToList]
        exact replaced_find pre tail v suf d hscan htry hd hdns
      · rw [mkToList]
        exact replaced_test pre d suf
      · exact replaced_trimmed c₀ pre tail v suf d htrim hdec htry hd hdl
      · apply mk_ne_empty
        rw [domain_shape]
        simp
    have hstab : ∀ (d : List Char), d ≠ [] → (∀ ch ∈ d, ch ≠ ';') →
        (∀ c, d.getLast? = some c → jsWhitespace c = false) →
        normalizeCookieDomainValue (String.mk d) = String.mk d →
        normalizeCookieDomainAttribute
            (String.mk (pre ++ "; Domain=".toList ++ d ++ suf)) =
          String.mk (pre ++ "; Domain=".toList ++ d ++ suf) := by
      intro d hd hdns hdl hdval
      obtain ⟨hf, _, _, _⟩ := key d hd hdns hdl
      unfold normalizeCookieDomainAttribute
      rw [hf]
      dsimp only
      rw [hdval]
      rfl
    have hwval : normalizeCookieDomainValue
        (String.mk (normalizeCookieDomainValue (String.mk v)).toList) =
        String.mk (normalizeCookieDomainValue (String.mk v)).toList := by
      rw [mkOfToList]
      exact normalizeCookieDomainValue_idem _
    have hwd : ∀ (d : List Char), d ≠ [] → (∀ ch ∈ d, ch ≠ ';') →
        (∀ c, d.getLast? = some c → jsWhitespace c = false) →
        (dstr : String) → dstr.toList = d →
        withDomain (String.mk (pre ++ "; Domain=".toList ++
            (normalizeCookieDomainValue (String.mk v)).toList ++ suf)) dstr =
          String.mk (pre ++ "; Domain=".toList ++ d ++ suf) := by
      intro d hd hdns hdl dstr hdstr
      obtain ⟨hf, ht, _, _⟩ := key (normalizeCookieDomainValue
        (String.mk v)).toList hw_ne hw_nosemi hw_last
      unfold withDomain
      rw [ht, if_pos rfl, hf]
      dsimp only
      rw [hdstr]
    have hx_ne : (".x.com" : String).toList ≠ [] := by decide
    have hx_nosemi : ∀ ch ∈ (".x.com" : String).toList, ch ≠ ';' :=
      all_ne_semi (by decide)
    have hx_last : ∀ c, (".x.com" : String).toList.getLast? = some c →
        jsWhitespace c = false := by
      intro c hc
      rw [show (".x.com" : String).toList.getLast? = some 'm' from rfl] at hc
      cases hc
      decide
    have htw_ne : (".twitter.com" : String).toList ≠ [] := by decide
    have htw_nosemi : ∀ ch ∈ (".twitter.com" : String).toList, ch ≠ ';' :=
      all_ne_semi (by decide)
    have htw_last : ∀ c, (".twitter.com" : String).toList.getLast? = some c →
        jsWhitespace c = false := by
      intro c hc
      rw [show (".twitter.com" : String).toList.getLast? = some 'm'
        from rfl] at hc
      cases hc
      decide
    have hxval : normalizeCookieDomainValue
        (String.mk (".x.com" : String).toList) =
        String.mk (".x.com" : String).toList := by
      rw [mkOfToList]
      exact normalizeCookieDomainValue_x
    have htwval : normalizeCookieDomainValue
        (String.mk (".twitter.com" : String).toList) =
        String.mk (".twitter.com" : String).toList := by
      rw [mkOfToList]
      exact normalizeCookieDomainValue_tw
    have hxfacts := key (".x.com" : String).toList hx_ne hx_nosemi hx_last
    have htwfacts := key (".twitter.com" : String).toList htw_ne htw_nosemi
      htw_last
    have hwfacts := key (normalizeCookieDomainValue (String.mk v)).toList
      hw_ne hw_nosemi hw_last
    have hexp_x : expandCrossDomainCookies
        (String.mk (pre ++ "; Domain=".toList ++
          (".x.com" : String).toList ++ suf)) =
        [String.mk (pre ++ "; Domain=".toList ++
            (".x.com" : String).toList ++ suf),
          String.mk (pre ++ "; Domain=".toList ++
            (".twitter.com" : String).toList ++ suf)] := by
      unfold expandCrossDomainCookies
      rw [hxfacts.1]
      dsimp only
      rw [hxval, mkOfToList]
      rw [if_pos rfl]
      have hw1 : withDomain (String.mk (pre ++ "; Domain=".toList ++
          (".x.com" : String).toList ++ suf)) ".x.com" =
          String.mk (pre ++ "; Domain=".toList ++
            (".x.com" : String).toList ++ suf) := by
        unfold withDomain
        rw [hxfacts.2.1, if_pos rfl, hxfacts.1]
      have hw2 : withDomain (String.mk (pre ++ "; Domain=".toList ++
          (".x.com" : String).toList ++ suf)) ".twitter.com" =
          String.mk (pre ++ "; Domain=".toList ++
            (".twitter.com" : String).toList ++ suf) := by
        unfold withDomain
        rw [hxfacts.2.1, if_pos rfl, hxfacts.1]
      rw [hw1, hw2]
    have hexp_tw : expandCrossDomainCookies
        (String.mk (pre ++ "; Domain=".toList ++
          (".twitter.com" : String).toList ++ suf)) =
        [String.mk (pre ++ "; Domain=".toList ++
            (".twitter.com" : String).toList ++ suf),
          String.mk (pre ++ "; Domain=".toList ++
            (".x.com" : String).toList ++ suf)] := by
      unfold expandCrossDomainCookies
      rw [htwfacts.1]
      dsimp only
      rw [htwval, mkOfToList]
      rw [if_neg (by decide), if_pos rfl]
      have hw1 : withDomain (String.mk (pre ++ "; Domain=".toList ++
          (".twitter.com" : String).toList ++ suf)) ".twitter.com" =
          String.mk (pre ++ "; Domain=".toList ++
            (".twitter.com" : String).toList ++ suf) := by
        unfold withDomain
        rw [htwfacts.2.1, if_pos rfl, htwfacts.1]
      have hw2 : withDomain (String.mk (pre ++ "; Domain=".toList ++
          (".twitter.com" : String).toList ++ suf)) ".x.com" =
          String.mk (pre ++ "; Domain=".toList ++
            (".x.com" : String).toList ++ suf) := by
        unfold withDomain
        rw [htwfacts.2.1, if_pos rfl, htwfacts.1]
      rw [hw1, hw2]
    by_cases hwx : normalizeCookieDomainValue (String.mk v) = ".x.com"
    · have hnx : normalizeCookieDomainAttribute c₀ =
          String.mk (pre ++ "; Domain=".toList ++
            (".x.com" : String).toList ++ suf) := by
        rw [hn, hwx]
      rw [hnx, hexp_x]
      refine ⟨?_, ?_⟩
      · intro e he
        simp only [List.mem_cons, List.mem_singleton,
          List.not_mem_nil, or_false] at he
        rcases he with rfl | rfl
        · exact ⟨hxfacts.2.2.1, hxfacts.2.2.2,
            hstab _ hx_ne hx_nosemi hx_last hxval⟩
        · exact ⟨htwfacts.2.2.1, htwfacts.2.2.2,
            hstab _ htw_ne htw_nosemi htw_last htwval⟩
      · rw [List.flatMap_cons, List.flatMap_cons, List.flatMap_nil,
          hexp_x, hexp_tw, List.append_nil]
        exact dedup_abba _ _
    · by_cases hwt : normalizeCookieDomainValue (String.mk v) = ".twitter.com"
      · have hnt : normalizeCookieDomainAttribute c₀ =
            String.mk (pre ++ "; Domain=".toList ++
              (".twitter.com" : String).toList ++ suf) := by
          rw [hn, hwt]
        rw [hnt, hexp_tw]
        refine ⟨?_, ?_⟩
        · intro e he
          simp only [List.mem_cons, List.mem_singleton,
            List.not_mem_nil, or_false] at he
          rcases he with rfl | rfl
          · exact ⟨htwfacts.2.2.1, htwfacts.2.2.2,
              hstab _ htw_ne htw_nosemi htw_last htwval⟩
          · exact ⟨hxfacts.2.2.1, hxfacts.2.2.2,
              hstab _ hx_ne hx_nosemi hx_last hxval⟩
        · rw [List.flatMap_cons, List.flatMap_cons, List.flatMap_nil,
            hexp_tw, hexp_x, List.append_nil]
          exact dedup_abba _ _
      · have hexp_n : expandCrossDomainCookies
            (String.mk (pre ++ "; Domain=".toList ++
              (normalizeCookieDomainValue (String.mk v)).toList ++ suf)) =
            [String.mk (pre ++ "; Domain=".toList ++
              (normalizeCookieDomainValue (String.mk v)).toList ++ suf)] := by
          unfold expandCrossDomainCookies
          rw [hwfacts.1]
          dsimp only
          rw [hwval, mkOfToList]
          rw [if_neg hwx, if_neg hwt]
        rw [hn, hexp_n]
        refine ⟨?_, ?_⟩
        · intro e he
          have he2 := List.mem_singleton.mp he
          subst he2
          exact ⟨hwfacts.2.2.1, hwfacts.2.2.2,
            hstab _ hw_ne hw_nosemi hw_last hwval⟩
        · rw [List.flatMap_cons, List.flatMap_nil, hexp_n, List.append_nil]

theorem map_id_of_eq {f : String → String} :
    ∀ (L : List String), (∀ a ∈ L, f a = a) → L.map f = L := by
  intro L
  induction L with
  | nil => intro _; rfl
  | cons a t ih =>
    intro h
    rw [List.map_cons, h a (List.mem_cons_self a t),
      ih fun b hb => h b (List.mem_cons_of_mem a hb)]

theorem length_pos_of_ne_empty {e : String} (h : e ≠ "") : 0 < e.length := by
  have h2 : e.toList ≠ [] := by
    intro hnil
    apply h
    rw [← mkOfToList e, hnil]
  exact List.length_pos.mpr h2

theorem normalize_pass (M0 : List String)
    (hblocks : ∀ c ∈ M0,
      (∀ e ∈ expandCrossDomainCookies c,
        jsTrim e = e ∧ e ≠ "" ∧ normalizeCookieDomainAttribute e = e) ∧
      jsSetDedup
          ((expandCrossDomainCookies c).flatMap expandCrossDomainCookies) =
        jsSetDedup (expandCrossDomainCookies c)) :
    normalizeCookiesForTwitterRequests
        (jsSetDedup (M0.flatMap expandCrossDomainCookies)) =
      jsSetDedup (M0.flatMap expandCrossDomainCookies) := by
  have hLprops : ∀ e ∈ jsSetDedup (M0.flatMap expandCrossDomainCookies),
      jsTrim e = e ∧ e ≠ "" ∧ normalizeCookieDomainAttribute e = e := by
    intro e he
    have he2 : e ∈ M0.flatMap expandCrossDomainCookies :=
      jsSetDedup_subset _ e he
    obtain ⟨c, hc, hec⟩ := List.mem_flatMap.mp he2
    exact (hblocks c hc).1 e hec
  unfold normalizeCookiesForTwitterRequests
  have hmap1 : (jsSetDedup (M0.flatMap expandCrossDomainCookies)).map jsTrim =
      jsSetDedup (M0.flatMap expandCrossDomainCookies) :=
    map_id_of_eq _ fun a ha => (hLprops a ha).1
  rw [hmap1]
  have hfilt : (jsSetDedup (M0.flatMap expandCrossDomainCookies)).filter
      (fun c => c.length > 0) =
      jsSetDedup (M0.flatMap expandCrossDomainCookies) := by
    rw [List.filter_eq_self]
    intro a ha
    have := length_pos_of_ne_empty (hLprops a ha).2.1
    simpa using this
  rw [hfilt]
  have hmap2 : (jsSetDedup (M0.flatMap expandCrossDomainCookies)).map
      normalizeCookieDomainAttribute =
      jsSetDedup (M0.flatMap expandCrossDomainCookies) :=
    map_id_of_eq _ fun a ha => (hLprops a ha).2.2
  rw [hmap2]
  rw [jsSetDedup_flatMap_dedup, flatMap_flatMap]
  exact jsSetDedup_flatMap_congr expandCrossDomainCookies
    (fun c => (expandCrossDomainCookies c).flatMap expandCrossDomainCookies)
    M0 (fun c hc => (hblocks c hc).2)

/-- C8 counterexample: normalization is not idempotent on the nose. The
cookie `"a=1; Domain= ;Domain=b.com"` has its first `Domain` attribute value
consisting of a single space; the first pass rewrites it to
`"a=1; Domain=;Domain=b.com"`, whose valueless first `Domain=` no longer
matches, so the second pass canonicalizes the spacing of the *second*
`Domain` attribute and produces the different string
`"a=1; Domain=; Domain=b.com"`. -/
theorem c8_counterexample_whitespace_domain_value :
    normalizeCookiesForTwitterRequests
        (normalizeCookiesForTwitterRequests ["a=1; Domain= ;Domain=b.com"]) ≠
      normalizeCookiesForTwitterRequests ["a=1; Domain= ;Domain=b.com"] := by
  decide

/-- C8 (amended): cookie normalization is idempotent on every cookie list
in which no cookie's first `Domain` attribute match (after trimming the
cookie) carries a whitespace-only value:
`normalize (normalize x) = normalize x` whenever every cookie of `x` is
`goodCookie`. -/
theorem c8_amended_idempotent_for_good_cookies (cookies : List String)
    (h : ∀ c ∈ cookies, goodCookie c = true) :
    normalizeCookiesForTwitterRequests
        (normalizeCookiesForTwitterRequests cookies) =
      normalizeCookiesForTwitterRequests cookies := by
  have hM1props : ∀ c ∈ (cookies.map jsTrim).filter (fun c => c.length > 0),
      jsTrim c = c ∧ c ≠ "" ∧ goodCookie c = true := by
    intro c hc
    obtain ⟨hcf, hclen⟩ := List.mem_filter.mp hc
    obtain ⟨c0, hc0, rfl⟩ := List.mem_map.mp hcf
    refine ⟨jsTrim_idem c0, ?_, ?_⟩
    · intro he
      rw [he] at hclen
      simp at hclen
    · unfold goodCookie
      rw [jsTrim_idem]
      have hgood := h c0 hc0
      unfold goodCookie at hgood
      exact hgood
  have hblocks : ∀ c ∈ ((cookies.map jsTrim).filter
        (fun c => c.length > 0)).map normalizeCookieDomainAttribute,
      (∀ e ∈ expandCrossDomainCookies c,
        jsTrim e = e ∧ e ≠ "" ∧ normalizeCookieDomainAttribute e = e) ∧
      jsSetDedup
          ((expandCrossDomainCookies c).flatMap expandCrossDomainCookies) =
        jsSetDedup (expandCrossDomainCookies c) := by
    intro c hc
    obtain ⟨c₁, hc₁, rfl⟩ := List.mem_map.mp hc
    obtain ⟨ht, hn, hg⟩ := hM1props c₁ hc₁
    exact cookieBlock c₁ ht hn hg
  exact normalize_pass _ hblocks

/-- C8 witness: a concrete cookie list (one platform-domain cookie and one
plain cookie) satisfies the side condition, and normalization is idempotent
on it. -/
theorem c8_amended_idempotent_for_good_cookies_witness :
    (∀ c ∈ ["a=1; Domain=x.com; k=2", "b=2"], goodCookie c = true) ∧
    normalizeCookiesForTwitterRequests
        (normalizeCookiesForTwitterRequests
          ["a=1; Domain=x.com; k=2", "b=2"]) =
      normalizeCookiesForTwitterRequests ["a=1; Domain=x.com; k=2", "b=2"] :=
  ⟨by decide,
    c8_amended_idempotent_for_good_cookies
      ["a=1; Domain=x.com; k=2", "b=2"] (by decide)⟩

end Twmd
